import Mathlib

/-!
Verification of the gpm-nodejs package manager client.

This development gives a shallow embedding of the core of the repository:
the range-string helpers, the semantic-version resolution helpers, the
directory census, the npm client's download/validation operations and the
breadth-first installation orchestrator of `src/index.ts`, and proves or
refutes the specification's claims about them.

JavaScript objects used as string-keyed maps are embedded as association
lists in insertion order (`kvGet`, `kvSet`, `kvMerge` mirror property read,
property assignment and object spread).  Exceptions are embedded by giving
every effectful operation the result type `St × Except NErr α`, so that the
state at the moment an exception is raised is preserved, exactly as the
real filesystem state is.
-/

deriving instance DecidableEq for Except

namespace Gpm

/-- Property read `obj[k]` on a JS object embedded as an assoc list. -/
def kvGet {α : Type} (k : String) : List (String × α) → Option α
  | [] => none
  | (k', v) :: rest => if k' = k then some v else kvGet k rest

/-- Property assignment `obj[k] = v`: updates in place, else appends. -/
def kvSet {α : Type} (k : String) (v : α) : List (String × α) → List (String × α)
  | [] => [(k, v)]
  | (k', v') :: rest => if k' = k then (k, v) :: rest else (k', v') :: kvSet k v rest

/-- Object spread `{...a, ...b}`: every property of `b` assigned into `a`. -/
def kvMerge {α : Type} (a b : List (String × α)) : List (String × α) :=
  b.foldl (fun acc p => kvSet p.1 p.2 acc) a

/-- `fs.rmSync` of a directory keyed entry: the key disappears. -/
def kvRemove {α : Type} (k : String) (l : List (String × α)) : List (String × α) :=
  l.filter (fun p => p.1 ≠ k)

/-- JS truthiness of `obj[key]` for a string-valued object: `undefined` and
the empty string are falsy. -/
def truthy : Option String → Bool
  | some s => !s.data.isEmpty
  | none => false

/-! ### Range-string helpers (`npm-client.ts` lines 94-112)

String primitives are embedded over the character list `String.data`, so
that every definition evaluates inside the kernel.  `splitChar` is
JavaScript's `String.prototype.split` with a one-character separator
(the repository only ever splits on `'@'`, `':'`, `'.'` and `'/'`).
-/

/-- JS `s.split(sep)` for a single-character separator. -/
def splitChar (sep : Char) : List Char → List (List Char)
  | [] => [[]]
  | c :: rest =>
    let r := splitChar sep rest
    if c = sep then [] :: r
    else
      match r with
      | [] => [[c]]
      | h :: t => (c :: h) :: t

/-- JS `version.split(sep)` returning strings. -/
def splitOnC (s : String) (sep : Char) : List String :=
  (splitChar sep s.data).map String.mk

/-- `extractPackageNameFromVersion`: splits on `@`, then on `:`, and keeps the
part after the colon when one is present (`scope:name@range` aliasing). -/
def extractPackageNameFromVersion (version : String) : String :=
  let versionRangeArray := splitOnC version '@'
  let nameParts := splitOnC (versionRangeArray.getD 0 "") ':'
  if nameParts.length > 1 then nameParts.getD 1 "" else nameParts.getD 0 ""

/-- `extractVersionFromVersion`: the part after the first `@`, or the whole
string when no `@` is present. -/
def extractVersionFromVersion (version : String) : String :=
  let versionRangeArray := splitOnC version '@'
  if versionRangeArray.length > 1 then versionRangeArray.getD 1 ""
  else versionRangeArray.getD 0 ""

/-- `getSanitizedVersion`: same computation as `extractVersionFromVersion`. -/
def getSanitizedVersion (version : String) : String :=
  let versionRangeArray := splitOnC version '@'
  if versionRangeArray.length > 1 then versionRangeArray.getD 1 ""
  else versionRangeArray.getD 0 ""

/-- `isVersionContainPackageName`: `version.includes('@')`. -/
def isVersionContainPackageName (version : String) : Bool :=
  version.data.contains '@'

/-- Occurs-as-contiguous-sublist test on character lists. -/
def charsInfix : List Char → List Char → Bool
  | n, [] => n.isEmpty
  | n, c :: t => n.isPrefixOf (c :: t) || charsInfix n t

/-- Substring test on strings (used to state what error messages mention). -/
def containsStr (hay needle : String) : Bool :=
  charsInfix needle.data hay.data

/-! ### Semantic versions

The repository delegates version comparison to the external `semver`
library.  The subset of node-semver exercised by the repository (plain
`x.y.z` versions; exact, caret and wildcard/empty ranges; `maxSatisfying`
returning the highest satisfying version) is embedded here.
-/

structure SemVer where
  major : Nat
  minor : Nat
  patch : Nat
deriving DecidableEq, Repr

/-- Decimal digit string to number (none when empty or non-digit). -/
def digitsAux (acc : Nat) : List Char → Option Nat
  | [] => some acc
  | c :: t => if c.isDigit then digitsAux (acc * 10 + (c.toNat - 48)) t else none

def parseNat? (s : String) : Option Nat :=
  match s.data with
  | [] => none
  | l => digitsAux 0 l

/-- Parses a plain `x.y.z` version string. -/
def parseSemVer? (s : String) : Option SemVer :=
  match splitOnC s '.' with
  | [a, b, c] =>
    match parseNat? a, parseNat? b, parseNat? c with
    | some x, some y, some z => some ⟨x, y, z⟩
    | _, _, _ => none
  | _ => none

/-- Semver precedence: lexicographic on (major, minor, patch). -/
def semVerLt (a b : SemVer) : Bool :=
  decide (a.major < b.major ∨ (a.major = b.major ∧
    (a.minor < b.minor ∨ (a.minor = b.minor ∧ a.patch < b.patch))))

/-- Node-semver range forms used by this repository. -/
inductive RangeC where
  | wildcard
  | caret (base : SemVer)
  | exact (v : SemVer)
deriving DecidableEq, Repr

/-- Upper bound of a caret range, per node-semver (`^1.2.3` allows `<2.0.0`,
`^0.2.3` allows `<0.3.0`, `^0.0.3` allows `<0.0.4`). -/
def caretUpper (b : SemVer) : SemVer :=
  if b.major > 0 then ⟨b.major + 1, 0, 0⟩
  else if b.minor > 0 then ⟨0, b.minor + 1, 0⟩
  else ⟨0, 0, b.patch + 1⟩

/-- Parses the range forms used here; node-semver treats the empty range and
`*` as matching every version. -/
def parseRange? (s : String) : Option RangeC :=
  match s.data with
  | [] => some .wildcard
  | ['*'] => some .wildcard
  | '^' :: rest => (parseSemVer? (String.mk rest)).map .caret
  | _ => (parseSemVer? s).map .exact

def satisfiesRange (v : SemVer) (r : RangeC) : Bool :=
  match r with
  | .wildcard => true
  | .exact w => decide (v = w)
  | .caret b => (!semVerLt v b) && semVerLt v (caretUpper b)

/-- `semver.satisfies(version, range)`: false on unparsable inputs. -/
def satisfiesB (version range : String) : Bool :=
  match parseRange? range, parseSemVer? version with
  | some r, some v => satisfiesRange v r
  | _, _ => false

/-- Precedence comparison of two version strings (false when either side
does not parse). -/
def ltStr (a b : String) : Bool :=
  match parseSemVer? a, parseSemVer? b with
  | some x, some y => semVerLt x y
  | _, _ => false

/-- Fold picking the highest version among candidates. -/
def pickMax : Option String → List String → Option String
  | acc, [] => acc
  | acc, v :: rest =>
    match acc with
    | none => pickMax (some v) rest
    | some a => pickMax (some (if ltStr a v then v else a)) rest

/-- `semver.maxSatisfying(versions, range)`: the highest version in the list
satisfying the range, or none. -/
def maxSatisfying (versions : List String) (range : String) : Option String :=
  pickMax none (versions.filter (fun v => satisfiesB v range))

/-! ### Directory census (`folder-stat.ts`, `npm-client.ts` getFolderStat)

A directory tree is embedded as lists of entries.  `fs.statSync` (used by
`getFolderStat`) follows symbolic links, so the stat of a symlink is the
stat of its target; `fs.readdirSync` on a path that is a symlink to a
directory lists the target's entries.
-/

structure FolderStat where
  fileCount : Nat
  totalSize : Nat
deriving DecidableEq, Repr, Inhabited

/-- `FolderStat.addFolderStat`: componentwise sum. -/
def FolderStat.addFolderStat (a b : FolderStat) : FolderStat :=
  ⟨a.fileCount + b.fileCount, a.totalSize + b.totalSize⟩

/-- Result of `fs.statSync` (which resolves symbolic links). -/
structure Stats where
  isFile : Bool
  isDirectory : Bool
  size : Nat
deriving DecidableEq, Repr

/-- `FolderStat.addFileStat`: counts the entry only when the stat reports a
regular file. -/
def FolderStat.addFileStat (a : FolderStat) (stat : Stats) : FolderStat :=
  if stat.isFile then ⟨a.fileCount + 1, a.totalSize + stat.size⟩ else a

/-- A directory entry.  A symlink records what its target resolves to. -/
inductive FsEntry where
  | file (size : Nat)
  | dir (entries : List FsEntry)
  | symlinkFile (targetSize : Nat)
  | symlinkDir (targetEntries : List FsEntry)
  | special
deriving Repr

/-- `fs.statSync` on an entry: follows symbolic links to their target. -/
def FsEntry.statSync : FsEntry → Stats
  | .file n => ⟨true, false, n⟩
  | .dir _ => ⟨false, true, 0⟩
  | .symlinkFile n => ⟨true, false, n⟩
  | .symlinkDir _ => ⟨false, true, 0⟩
  | .special => ⟨false, false, 0⟩

/-- `fs.readdirSync` of a path whose stat is a directory (through links). -/
def FsEntry.listing : FsEntry → List FsEntry
  | .dir es => es
  | .symlinkDir es => es
  | _ => []

mutual
/-- Contribution of one entry to `getFolderStat`'s accumulator:
`addFileStat(statSync(path))`, plus the recursive census when the followed
stat is a directory. -/
def censusEntry : FsEntry → FolderStat
  | .file n => ⟨1, n⟩
  | .dir es => censusList es
  | .symlinkFile n => ⟨1, n⟩
  | .symlinkDir es => censusList es
  | .special => ⟨0, 0⟩

def censusList : List FsEntry → FolderStat
  | [] => ⟨0, 0⟩
  | e :: rest => (censusEntry e).addFolderStat (censusList rest)
end

/-- `getFolderStat(dir)`: iterates the directory listing, adding each file
stat and recursing into directories. -/
def getFolderStat (entries : List FsEntry) : FolderStat :=
  censusList entries

/-- The per-entry census agrees with the literal loop body of
`getFolderStat`: add the stat of the entry, and when the (symlink-followed)
stat is a directory, add the census of its listing. -/
theorem censusEntry_eq_loop_body (e : FsEntry) :
    censusEntry e =
      (let s := e.statSync
       let base := FolderStat.addFileStat ⟨0, 0⟩ s
       if s.isDirectory then base.addFolderStat (getFolderStat e.listing) else base) := by
  cases e <;> simp [censusEntry, FsEntry.statSync, FsEntry.listing, getFolderStat,
    FolderStat.addFileStat, FolderStat.addFolderStat]

/-! ### Registry data model (`package.response.ts`, `version.response.ts`) -/

structure Dist where
  tarball : String
  shasum : String
  fileCount : Nat
  unpackedSize : Nat
deriving DecidableEq, Repr, Inhabited

structure VersionResponse where
  name : String
  version : String
  dependencies : List (String × String)
  bin : Option (String ⊕ List (String × String))
  dist : Dist
deriving DecidableEq, Repr, Inhabited

structure PackageResponse where
  name : String
  versions : List (String × VersionResponse)
deriving DecidableEq, Repr, Inhabited

/-- An installed module directory: the fields of its extracted
`package.json` that the orchestrator reads, plus the directory census of
its contents. -/
structure Module where
  version : String
  dependencies : List (String × String)
  census : FolderStat
deriving DecidableEq, Repr, Inhabited

/-- The bytes behind one tarball URL: the sha1 the written file hashes to,
whether reading/unpacking the stream succeeds, and the extracted payload. -/
structure Archive where
  hash : String
  extractOk : Bool
  content : Module
deriving DecidableEq, Repr, Inhabited

/-- An HTTP response of `GET registryUrl/packageName`. -/
structure RegResponse where
  ok : Bool
  status : Nat
  statusText : String
  body : PackageResponse
deriving DecidableEq, Repr, Inhabited

/-- The unchanging external world: the registry and the archive bytes. -/
structure World where
  registry : List (String × RegResponse)
  tarballs : List (String × Archive)
deriving DecidableEq, Repr, Inhabited

/-- Failure modes actually raised by the code: the generic Errors thrown by
`downloadPackageInfo` and `downloadModule`, stream failures, filesystem
errors, and JavaScript TypeErrors from reading properties of `undefined`. -/
inductive NErr where
  | registry (msg : String)
  | integrity (msg : String)
  | extraction (msg : String)
  | fsError (msg : String)
  | undefinedAccess (msg : String)
deriving DecidableEq, Repr

/-- Mutable state of a run: the module directory tree, temp archive files on
disk, `.bin` links, the metadata cache, the processed-dependencies ledger,
and instrumentation logs of download calls and processed names. -/
structure St where
  modules : List (String × Module)
  tmpFiles : List String
  binLinks : List (String × String)
  cache : List (String × PackageResponse)
  ledger : List (String × String)
  downloads : List String
  redownloads : List String
  processedLog : List String
deriving DecidableEq, Repr, Inhabited

/-! ### NpmClient operations (`npm-client.ts`) -/

/-- `path.basename` of a URL/path: the part after the last slash. -/
def basename (p : String) : String :=
  (splitOnC p '/').getLastD p

/-- `fetch(registryUrl/name)`: a missing registry entry answers 404. -/
def fetchRegistry (w : World) (packageName : String) : RegResponse :=
  (kvGet packageName w.registry).getD ⟨false, 404, "Not Found", default⟩

/-- `downloadPackageInfo`: fetches the metadata document; on a non-ok
response throws an Error whose message appends only `response.statusText`. -/
def downloadPackageInfo (w : World) (packageName : String) :
    Except NErr PackageResponse :=
  let response := fetchRegistry w packageName
  if response.ok then .ok response.body
  else .error (.registry ("Failed to download package: " ++ response.statusText))

/-- `getPackage` with caching enabled (the CLI constructs `NpmClient` with
the default `cacheable = true`): cache read, else fetch then cache write. -/
def getPackage (w : World) (packageName : String) (st : St) :
    St × Except NErr PackageResponse :=
  match kvGet packageName st.cache with
  | some packageResponse => (st, .ok packageResponse)
  | none =>
    match downloadPackageInfo w packageName with
    | .error e => (st, .error e)
    | .ok packageResponse =>
      ({st with cache := kvSet packageName packageResponse st.cache}, .ok packageResponse)

/-- The path of the temporary archive file `downloadModule` writes inside
the destination directory. -/
def tmpPathOf (version : VersionResponse) (destinationDir : String) : String :=
  destinationDir ++ "/" ++ basename version.dist.tarball

/-- `downloadModule`: ensures the directory, removes a stale temp file,
streams the archive to the temp file, verifies its sha1 against
`dist.shasum` (mismatch: removes the file and throws), unpacks it into the
directory, and removes the temp file after a successful unpack. -/
def downloadModule (w : World) (version : VersionResponse)
    (destinationDir : String) (st : St) : St × Except NErr Unit :=
  let fileUrl := version.dist.tarball
  let fileName := basename fileUrl
  let destinationFilePath := destinationDir ++ "/" ++ fileName
  let st1 := {st with tmpFiles := st.tmpFiles.erase destinationFilePath}
  let arch := (kvGet fileUrl w.tarballs).getD default
  let st2 := {st1 with
    tmpFiles := destinationFilePath :: st1.tmpFiles,
    downloads := st1.downloads ++ [fileUrl]}
  if arch.hash = version.dist.shasum then
    if arch.extractOk then
      ({st2 with
          modules := kvSet destinationDir arch.content st2.modules,
          tmpFiles := st2.tmpFiles.erase destinationFilePath}, .ok ())
    else
      (st2, .error (.extraction ("stream error unpacking " ++ fileName)))
  else
    ({st2 with tmpFiles := st2.tmpFiles.erase destinationFilePath},
     .error (.integrity ("Downloaded file \"" ++ fileName ++ "\" has incorrect hash")))

/-- `redownloadModule`: recursively removes the module directory (and any
temp file inside it), then downloads afresh. -/
def redownloadModule (w : World) (version : VersionResponse)
    (destinationDir : String) (st : St) : St × Except NErr Unit :=
  let st1 := {st with
    modules := kvRemove destinationDir st.modules,
    tmpFiles := st.tmpFiles.filter (fun p => !((destinationDir ++ "/").data.isPrefixOf p.data)),
    redownloads := st.redownloads ++ [version.dist.tarball]}
  downloadModule w version destinationDir st1

/-- `isModuleValid`: directory census equals the declared file count and
unpacked size. -/
def isModuleValid (version : VersionResponse) (installed : Module) : Bool :=
  installed.census.fileCount = version.dist.fileCount &&
    installed.census.totalSize = version.dist.unpackedSize

/-- `getClosestVersion`: sanitizes the range and selects
`versions[maxSatisfying(keys, range)]` (none when nothing satisfies, since
`versions[null]` is `undefined`). -/
def getClosestVersion (packageResponse : PackageResponse)
    (requiredModuleVersion : String) : Option VersionResponse :=
  let versionRange := getSanitizedVersion requiredModuleVersion
  match maxSatisfying (packageResponse.versions.map (·.1)) versionRange with
  | none => none
  | some closestVersion => kvGet closestVersion packageResponse.versions

/-- One `fs.symlinkSync` call: throws `EEXIST` when the link name is already
present in the bin directory. -/
def symlinkEntries (moduleDirPath : String) :
    List (String × String) → St → St × Except NErr Unit
  | [], st => (st, .ok ())
  | (binName, rel) :: rest, st =>
    if (kvGet binName st.binLinks).isSome then
      (st, .error (.fsError "EEXIST: file already exists, symlink"))
    else
      symlinkEntries moduleDirPath rest
        {st with binLinks := kvSet binName (moduleDirPath ++ "/" ++ rel) st.binLinks}

/-- `symlinkBinFiles`: no-op without a `bin` declaration; the string form
links the package name, the map form links each command name. -/
def symlinkBinFiles (version : VersionResponse) (moduleDirPath : String)
    (st : St) : St × Except NErr Unit :=
  match version.bin with
  | none => (st, .ok ())
  | some (.inl single) => symlinkEntries moduleDirPath [(version.name, single)] st
  | some (.inr binMap) => symlinkEntries moduleDirPath binMap st

/-! ### Installation orchestrator (`index.ts` installDependencies / installPackage)

`processDep` is the body of the `for` loop of `installDependencies` for one
`(key, range)` pair; `installLevel` folds it over one requirement level,
threading the accumulated `requiredModuleDependencies`; `levelIter` is the
do-while loop of `installPackage`, driven by fuel.  A thrown exception
aborts the run with the state at the moment of the throw.
-/

/-- The already-installed branch of the loop body (`index.ts` lines 80-100):
if the installed version satisfies the range, validate and repair in place
when invalid; otherwise resolve the closest version and upgrade via
`redownloadModule`; in either case (re)materialize bin symlinks.  A missing
registry record for the installed/resolved version is JavaScript
`undefined` and crashes on its first property access. -/
def installedBranch (w : World) (key requiredModuleVersion : String)
    (packageResponse : PackageResponse) (installed : Module) (st1 : St) :
    St × Except NErr Unit :=
  if satisfiesB installed.version requiredModuleVersion then
    match kvGet installed.version packageResponse.versions with
    | none =>
      -- `isModuleValid(undefined, dir)` reads `undefined.dist`
      (st1, .error (.undefinedAccess "Cannot read properties of undefined (reading 'dist')"))
    | some moduleCurrentVersion =>
      let checked :=
        if isModuleValid moduleCurrentVersion installed then (st1, Except.ok ())
        else redownloadModule w moduleCurrentVersion key st1
      match checked with
      | (st2, .error e) => (st2, .error e)
      | (st2, .ok _) => symlinkBinFiles moduleCurrentVersion key st2
  else
    match maxSatisfying (packageResponse.versions.map (·.1)) requiredModuleVersion with
    | none =>
      -- `redownloadModule(versions[null], ...)` reads `undefined.name`
      (st1, .error (.undefinedAccess "Cannot read properties of undefined (reading 'name')"))
    | some moduleNewVersion =>
      match kvGet moduleNewVersion packageResponse.versions with
      | none =>
        (st1, .error (.undefinedAccess "Cannot read properties of undefined (reading 'name')"))
      | some newRecord =>
        match redownloadModule w newRecord key st1 with
        | (st2, .error e) => (st2, .error e)
        | (st2, .ok _) => symlinkBinFiles newRecord key st2

/-- The fresh-install branch (`index.ts` lines 103-111): resolve the
closest version, `downloadModule`, symlink bins; yields the downloaded
record's dependencies for the merge. -/
def freshBranch (w : World) (key requiredModuleVersion : String)
    (packageResponse : PackageResponse) (st1 : St) :
    St × Except NErr (List (String × String)) :=
  match maxSatisfying (packageResponse.versions.map (·.1)) requiredModuleVersion with
  | none =>
    -- `downloadModule(versions[null], ...)` reads `undefined.dist`
    (st1, .error (.undefinedAccess "Cannot read properties of undefined (reading 'dist')"))
  | some versionToDownload =>
    match kvGet versionToDownload packageResponse.versions with
    | none =>
      (st1, .error (.undefinedAccess "Cannot read properties of undefined (reading 'dist')"))
    | some moduleVersionToDownload =>
      match downloadModule w moduleVersionToDownload key st1 with
      | (st2, .error e) => (st2, .error e)
      | (st2, .ok _) =>
        match symlinkBinFiles moduleVersionToDownload key st2 with
        | (st3, .error e) => (st3, .error e)
        | (st3, .ok _) => (st3, .ok moduleVersionToDownload.dependencies)

def processDep (w : World) (key rng : String) (st : St)
    (nextReq : List (String × String)) : St × Except NErr (List (String × String)) :=
  if truthy (kvGet key st.ledger) then (st, .ok nextReq)
  else
    let requiredModuleVersion := extractVersionFromVersion rng
    let packageName :=
      if isVersionContainPackageName rng then extractPackageNameFromVersion rng else key
    match getPackage w packageName st with
    | (st1, .error e) => (st1, .error e)
    | (st1, .ok packageResponse) =>
      match kvGet key st1.modules with
      | some installed =>
        match installedBranch w key requiredModuleVersion packageResponse installed st1 with
        | (stE, .error e) => (stE, .error e)
        | (st3, .ok _) =>
          -- line 102: merges the dependencies of the package.json read
          -- before any reinstall, in both subbranches
          ({st3 with
              ledger := kvSet key requiredModuleVersion st3.ledger,
              processedLog := st3.processedLog ++ [key]},
           .ok (kvMerge nextReq installed.dependencies))
      | none =>
        match freshBranch w key requiredModuleVersion packageResponse st1 with
        | (stE, .error e) => (stE, .error e)
        | (st3, .ok deps) =>
          ({st3 with
              ledger := kvSet key requiredModuleVersion st3.ledger,
              processedLog := st3.processedLog ++ [key]},
           .ok (kvMerge nextReq deps))

def installLevel (w : World) :
    List (String × String) → St → List (String × String) →
    St × Except NErr (List (String × String))
  | [], st, nextReq => (st, .ok nextReq)
  | (key, rng) :: rest, st, nextReq =>
    match processDep w key rng st nextReq with
    | (st', .error e) => (st', .error e)
    | (st', .ok next') => installLevel w rest st' next'

structure RunState where
  st : St
  level : List (String × String)
  err : Option NErr
deriving DecidableEq, Repr

/-- The do-while loop of `installPackage`, with fuel. -/
def levelIter (w : World) : Nat → RunState → RunState
  | 0, rs => rs
  | n + 1, rs =>
    if rs.err.isSome then rs
    else if rs.level.isEmpty then rs
    else
      match installLevel w rs.level rs.st [] with
      | (st', .error e) => {st := st', level := rs.level, err := some e}
      | (st', .ok next) => levelIter w n {st := st', level := next, err := none}

/-- A run has come to rest: an exception propagated out, or the level
emptied. -/
def runDone (rs : RunState) : Bool := rs.err.isSome || rs.level.isEmpty

/-! ### Order lemmas for version precedence and `maxSatisfying` -/

theorem semVerLt_false_trans {a b c : SemVer}
    (h1 : semVerLt a b = false) (h2 : semVerLt b c = false) :
    semVerLt a c = false := by
  simp only [semVerLt, decide_eq_false_iff_not] at *
  rcases a with ⟨a1, a2, a3⟩
  rcases b with ⟨b1, b2, b3⟩
  rcases c with ⟨c1, c2, c3⟩
  simp only at *
  omega

theorem semVerLt_trans {a b c : SemVer}
    (h1 : semVerLt a b = true) (h2 : semVerLt b c = true) :
    semVerLt a c = true := by
  simp only [semVerLt, decide_eq_true_eq] at *
  rcases a with ⟨a1, a2, a3⟩
  rcases b with ⟨b1, b2, b3⟩
  rcases c with ⟨c1, c2, c3⟩
  simp only at *
  omega

theorem semVerLt_irrefl (a : SemVer) : semVerLt a a = false := by
  simp [semVerLt]

theorem ltStr_irrefl (a : String) : ltStr a a = false := by
  unfold ltStr
  cases parseSemVer? a
  · rfl
  · exact semVerLt_irrefl _

theorem satisfiesB_parses {v r : String} (h : satisfiesB v r = true) :
    (parseSemVer? v).isSome := by
  unfold satisfiesB at h
  cases hr : parseRange? r <;> rw [hr] at h
  · cases hv : parseSemVer? v <;> rw [hv] at h
    · exact Bool.noConfusion h
    · exact Bool.noConfusion h
  · cases hv : parseSemVer? v <;> rw [hv] at h
    · exact Bool.noConfusion h
    · rfl

theorem ltStr_false_trans {x y z : String} (hy : (parseSemVer? y).isSome)
    (h1 : ltStr x y = false) (h2 : ltStr y z = false) :
    ltStr x z = false := by
  unfold ltStr at *
  rcases hyv : parseSemVer? y with _ | yv
  · rw [hyv] at hy; exact Bool.noConfusion hy
  · rw [hyv] at h1 h2
    cases hx : parseSemVer? x with
    | none => cases hz : parseSemVer? z <;> rfl
    | some xv =>
      rw [hx] at h1
      cases hz : parseSemVer? z with
      | none => rfl
      | some zv =>
        rw [hz] at h2
        exact semVerLt_false_trans h1 h2

theorem ltStr_trans {x y z : String}
    (h1 : ltStr x y = true) (h2 : ltStr y z = true) :
    ltStr x z = true := by
  unfold ltStr at *
  cases hx : parseSemVer? x with
  | none =>
    rw [hx] at h1
    cases hyv : parseSemVer? y <;> rw [hyv] at h1 <;> exact Bool.noConfusion h1
  | some xv =>
    rw [hx] at h1
    cases hyv : parseSemVer? y with
    | none => rw [hyv] at h1; exact Bool.noConfusion h1
    | some yv =>
      rw [hyv] at h1 h2
      cases hz : parseSemVer? z with
      | none => rw [hz] at h2; exact Bool.noConfusion h2
      | some zv =>
        rw [hz] at h2
        exact semVerLt_trans h1 h2

theorem pickMax_mem :
    ∀ (l : List String) (acc : Option String) (m : String),
      pickMax acc l = some m → acc = some m ∨ m ∈ l := by
  intro l
  induction l with
  | nil => intro acc m h; exact Or.inl h
  | cons v rest ih =>
    intro acc m h
    cases acc with
    | none =>
      rcases ih (some v) m h with h' | h'
      · exact Or.inr (by simp at h'; simp [h'])
      · exact Or.inr (List.mem_cons_of_mem _ h')
    | some a =>
      rcases ih (some (if ltStr a v then v else a)) m h with h' | h'
      · by_cases hlt : ltStr a v = true
        · rw [if_pos hlt] at h'
          exact Or.inr (by simp at h'; simp [h'])
        · rw [if_neg hlt] at h'
          exact Or.inl h'
      · exact Or.inr (List.mem_cons_of_mem _ h')

theorem pickMax_max :
    ∀ (l : List String) (acc : Option String) (m : String),
      (∀ v ∈ l, (parseSemVer? v).isSome) →
      (∀ a, acc = some a → (parseSemVer? a).isSome) →
      pickMax acc l = some m →
      (∀ a, acc = some a → ltStr m a = false) ∧ (∀ v ∈ l, ltStr m v = false) := by
  intro l
  induction l with
  | nil =>
    intro acc m _ _ h
    refine ⟨fun a ha => ?_, fun v hv => absurd hv (List.not_mem_nil v)⟩
    cases acc with
    | none => exact Option.noConfusion h
    | some b =>
      have hbm : some b = some m := h
      have hba : some b = some a := ha
      have hm : b = m := by injection hbm
      have hba2 : b = a := by injection hba
      rw [← hm, ← hba2]
      exact ltStr_irrefl b
  | cons v rest ih =>
    intro acc m hparse hacc h
    have hvp : (parseSemVer? v).isSome := hparse v (List.mem_cons_self v rest)
    have hrest : ∀ u ∈ rest, (parseSemVer? u).isSome :=
      fun u hu => hparse u (List.mem_cons_of_mem _ hu)
    cases acc with
    | none =>
      have := ih (some v) m hrest (by intro a ha; injection ha with h'; rw [← h']; exact hvp) h
      refine ⟨(fun a ha => by cases ha), fun u hu => ?_⟩
      rcases List.mem_cons.mp hu with h' | h'
      · subst h'; exact this.1 u rfl
      · exact this.2 u h'
    | some a =>
      have hap : (parseSemVer? a).isSome := hacc a rfl
      have hnp : (parseSemVer? (if ltStr a v then v else a)).isSome := by
        by_cases hlt : ltStr a v = true
        · rw [if_pos hlt]; exact hvp
        · rw [if_neg hlt]; exact hap
      have := ih (some (if ltStr a v then v else a)) m hrest
        (by intro b hb; injection hb with h'; rw [← h']; exact hnp) h
      by_cases hlt : ltStr a v = true
      · rw [if_pos hlt] at this
        have hmv : ltStr m v = false := this.1 v rfl
        refine ⟨fun b hb => ?_, fun u hu => ?_⟩
        · injection hb with h'; subst h'
          by_contra hma
          have : ltStr m v = true := ltStr_trans (by simpa using hma) hlt
          rw [this] at hmv; exact absurd hmv (by simp)
        · rcases List.mem_cons.mp hu with h' | h'
          · subst h'; exact hmv
          · exact this.2 u h'
      · rw [if_neg hlt] at this
        have hma : ltStr m a = false := this.1 a rfl
        refine ⟨fun b hb => ?_, fun u hu => ?_⟩
        · injection hb with h'; subst h'; exact hma
        · rcases List.mem_cons.mp hu with h' | h'
          · subst h'
            exact ltStr_false_trans hap hma (by simpa using hlt)
          · exact this.2 u h'

/-- Correctness of the embedded `semver.maxSatisfying`: the result is a
member of the candidate list, satisfies the range, and no satisfying
candidate has higher precedence. -/
theorem maxSatisfying_spec (versions : List String) (rng : String) (m : String)
    (h : maxSatisfying versions rng = some m) :
    m ∈ versions ∧ satisfiesB m rng = true ∧
      ∀ v ∈ versions, satisfiesB v rng = true → ltStr m v = false := by
  unfold maxSatisfying at h
  have hmem : m ∈ versions.filter (fun v => satisfiesB v rng) := by
    rcases pickMax_mem _ none m h with h' | h'
    · cases h'
    · exact h'
  have hparse : ∀ v ∈ versions.filter (fun v => satisfiesB v rng),
      (parseSemVer? v).isSome := by
    intro v hv
    exact satisfiesB_parses (by simpa using (List.mem_filter.mp hv).2)
  have hmax := pickMax_max _ none m hparse (by intro a ha; cases ha) h
  refine ⟨(List.mem_filter.mp hmem).1, by simpa using (List.mem_filter.mp hmem).2,
    fun v hv hsat => ?_⟩
  exact hmax.2 v (List.mem_filter.mpr ⟨hv, by simpa using hsat⟩)

/-! ### Association-list lemmas -/

theorem kvGet_kvSet_self {α : Type} (k : String) (v : α) :
    ∀ l : List (String × α), kvGet k (kvSet k v l) = some v := by
  intro l
  induction l with
  | nil => simp [kvSet, kvGet]
  | cons p rest ih =>
    by_cases h : p.1 = k
    · simp [kvSet, kvGet, h]
    · simp [kvSet, kvGet, h, ih]

theorem kvGet_kvSet_ne {α : Type} (k j : String) (v : α) (hne : k ≠ j) :
    ∀ l : List (String × α), kvGet j (kvSet k v l) = kvGet j l := by
  intro l
  induction l with
  | nil => simp [kvSet, kvGet, hne]
  | cons p rest ih =>
    by_cases h : p.1 = k
    · simp [kvSet, kvGet, h, hne]
    · simp only [kvSet, if_neg h, kvGet]
      by_cases h2 : p.1 = j
      · simp [h2]
      · simp [h2, ih]

theorem mem_kvSet {α : Type} (p : String × α) (k : String) (v : α) :
    ∀ l : List (String × α), p ∈ kvSet k v l → p = (k, v) ∨ p ∈ l := by
  intro l
  induction l with
  | nil => intro h; simp [kvSet] at h; exact Or.inl h
  | cons q rest ih =>
    intro h
    by_cases hq : q.1 = k
    · rw [kvSet, if_pos hq] at h
      rcases List.mem_cons.mp h with h' | h'
      · exact Or.inl h'
      · exact Or.inr (List.mem_cons_of_mem _ h')
    · rw [kvSet, if_neg hq] at h
      rcases List.mem_cons.mp h with h' | h'
      · exact Or.inr (by simp [h'])
      · rcases ih h' with h'' | h''
        · exact Or.inl h''
        · exact Or.inr (List.mem_cons_of_mem _ h'')

theorem mem_kvMerge {α : Type} (p : String × α) :
    ∀ (b a : List (String × α)), p ∈ kvMerge a b → p ∈ a ∨ p ∈ b := by
  intro b
  induction b with
  | nil => intro a h; exact Or.inl h
  | cons x rest ih =>
    intro a h
    have h' : p ∈ kvMerge (kvSet x.1 x.2 a) rest := h
    rcases ih _ h' with h'' | h''
    · rcases mem_kvSet p x.1 x.2 a h'' with h3 | h3
      · exact Or.inr (by simp [h3])
      · exact Or.inl h3
    · exact Or.inr (List.mem_cons_of_mem _ h'')

/-! ### Concrete fixtures shared by the claim theorems -/

/-- The empty run state (fresh working directory). -/
def stEmpty : St :=
  {modules := [], tmpFiles := [], binLinks := [], cache := [], ledger := [],
   downloads := [], redownloads := [], processedLog := []}

/-- A version record of package `libfoo` at the given version. -/
def mkRec (v : String) : VersionResponse :=
  {name := "libfoo", version := v, dependencies := [], bin := none,
   dist := {tarball := "https://registry.npmjs.org/libfoo/-/libfoo-" ++ v ++ ".tgz",
            shasum := "sha-" ++ v, fileCount := 1, unpackedSize := 1}}

/-- Metadata with published versions 1.0.0, 1.2.0, 1.9.3 and 2.0.0. -/
def pkgC5 : PackageResponse :=
  {name := "libfoo",
   versions := [("1.0.0", mkRec "1.0.0"), ("1.2.0", mkRec "1.2.0"),
                ("1.9.3", mkRec "1.9.3"), ("2.0.0", mkRec "2.0.0")]}

/-! ### Claim C10 -/

/-- Claim C10: for every input string `v`, `getSanitizedVersion v` and
`extractVersionFromVersion v` return the same string — the two public
helpers are extensionally equal. -/
theorem claim_C10_sanitize_eq_extract :
    ∀ v : String, getSanitizedVersion v = extractVersionFromVersion v := by
  intro v
  rfl

/-! ### Claim C5 -/

/-- Claim C5: `getClosestVersion` strips any leading `name@` prefix from the
range (via `getSanitizedVersion`) and returns the record of the maximum
published version satisfying the remaining range: whenever it returns a
record, that record is keyed by a published version that satisfies the
sanitized range and has no satisfying published version above it; in
particular, for published versions {1.0.0, 1.2.0, 1.9.3, 2.0.0} and range
`^1.0.0` (with or without a `libfoo@` prefix) it returns the record of
1.9.3. -/
theorem claim_C5_getClosestVersion :
    (∀ (pkg : PackageResponse) (rng : String) (vr : VersionResponse),
        getClosestVersion pkg rng = some vr →
        ∃ v, maxSatisfying (pkg.versions.map (·.1)) (getSanitizedVersion rng) = some v ∧
          kvGet v pkg.versions = some vr ∧
          v ∈ pkg.versions.map (·.1) ∧
          satisfiesB v (getSanitizedVersion rng) = true ∧
          ∀ u ∈ pkg.versions.map (·.1),
            satisfiesB u (getSanitizedVersion rng) = true → ltStr v u = false) ∧
    getClosestVersion pkgC5 "^1.0.0" = some (mkRec "1.9.3") ∧
    getClosestVersion pkgC5 "libfoo@^1.0.0" = some (mkRec "1.9.3") := by
  refine ⟨?_, by decide, by decide⟩
  intro pkg rng vr h
  simp only [getClosestVersion] at h
  cases hm : maxSatisfying (pkg.versions.map (·.1)) (getSanitizedVersion rng) with
  | none => rw [hm] at h; exact Option.noConfusion h
  | some v =>
    rw [hm] at h
    have spec := maxSatisfying_spec _ _ _ hm
    exact ⟨v, rfl, h, spec.1, spec.2.1, spec.2.2⟩

/-- Witness for claim C5: the general part applied at the concrete
metadata and range. -/
theorem claim_C5_witness :
    ∃ v, maxSatisfying (pkgC5.versions.map (·.1)) (getSanitizedVersion "^1.0.0") = some v ∧
      kvGet v pkgC5.versions = some (mkRec "1.9.3") ∧
      v ∈ pkgC5.versions.map (·.1) ∧
      satisfiesB v (getSanitizedVersion "^1.0.0") = true ∧
      ∀ u ∈ pkgC5.versions.map (·.1),
        satisfiesB u (getSanitizedVersion "^1.0.0") = true → ltStr v u = false :=
  claim_C5_getClosestVersion.1 pkgC5 "^1.0.0" (mkRec "1.9.3") (by decide)

/-! ### Claim C6 -/

/-- Claim C6 counterexample: the claim says symbolic links contribute
neither to the file count nor to the size sum, but `getFolderStat` uses
`fs.statSync`, which follows links: a directory whose only entry is a
symlink to a regular file of size 5 has census (1, 5), not (0, 0). -/
theorem claim_C6_counterexample :
    getFolderStat [FsEntry.symlinkFile 5] = ⟨1, 5⟩ ∧
      getFolderStat [FsEntry.symlinkFile 5] ≠ ⟨0, 0⟩ := by
  decide

/-- Claim C6 amended: the census counts entries by their symlink-followed
stat: regular files and symlinks to regular files are counted (a link with
the target's size), symlinks to directories are recursed into exactly like
directories, and only special files (neither file nor directory after
following) contribute nothing. -/
theorem claim_C6_amended :
    ∀ (n : Nat) (es : List FsEntry),
      getFolderStat [FsEntry.special] = ⟨0, 0⟩ ∧
      getFolderStat [FsEntry.file n] = ⟨1, n⟩ ∧
      getFolderStat [FsEntry.symlinkFile n] = ⟨1, n⟩ ∧
      getFolderStat [FsEntry.symlinkDir es] = getFolderStat es ∧
      getFolderStat [FsEntry.dir es] = getFolderStat es := by
  intro n es
  refine ⟨rfl, ?_, ?_, ?_, ?_⟩ <;>
    simp [getFolderStat, censusList, censusEntry, FolderStat.addFolderStat]

/-! ### Claim C3 -/

/-- Claim C3 counterexample: with an empty cache and a registry answering
404 Not Found for package `leftpad`, `getPackage` throws an error whose
message is exactly `Failed to download package: Not Found`, which contains
neither the package name `leftpad` nor the status `404`; the claim that the
message includes the offending package name and the HTTP status is false. -/
theorem claim_C3_counterexample :
    getPackage ⟨[], []⟩ "leftpad" stEmpty =
      (stEmpty, .error (.registry "Failed to download package: Not Found")) ∧
    containsStr "Failed to download package: Not Found" "leftpad" = false ∧
    containsStr "Failed to download package: Not Found" "404" = false := by
  decide

/-- Claim C3 amended: on a cache miss and a non-success response,
`getPackage` fails with an error whose message is
`Failed to download package: ` followed by the response's status text — the
reason phrase is surfaced, the package name and numeric status are not. -/
theorem claim_C3_amended (w : World) (name : String) (st : St)
    (hmiss : kvGet name st.cache = none)
    (hfail : (fetchRegistry w name).ok = false) :
    getPackage w name st =
      (st, .error (.registry
        ("Failed to download package: " ++ (fetchRegistry w name).statusText))) := by
  simp [getPackage, downloadPackageInfo, hmiss, hfail]

/-- Witness for claim C3 amended: a 404 answer for `leftpad` on the empty
cache. -/
theorem claim_C3_witness :
    getPackage ⟨[], []⟩ "leftpad" stEmpty =
      (stEmpty, .error (.registry
        ("Failed to download package: " ++ (fetchRegistry ⟨[], []⟩ "leftpad").statusText))) :=
  claim_C3_amended ⟨[], []⟩ "leftpad" stEmpty (by decide) (by decide)

/-! ### Claim C9 -/

/-- The state `NpmClient`'s constructor manipulates: whether a cache
directory exists at the path `.gpm/cache` relative to the process cwd
(tested by `existsSync(this.cacheDir)`), and the contents of the cache
directory under the configured working directory (the target of `rmSync`
and `mkdirSync(path.join(this.workingDir, this.cacheDir))`). -/
structure CacheWorld where
  cwdCacheExists : Bool
  workingCache : Option (List String)
deriving DecidableEq, Repr

/-- Constructor of `NpmClient` (`npm-client.ts` lines 19-28): when caching
is enabled, the cwd-relative existence test guards the removal of the
workingDir cache; `mkdirSync` with `recursive` then creates the directory
when absent and is a no-op when present. -/
def npmClientConstructorCache (cacheable : Bool) (w : CacheWorld) : CacheWorld :=
  if cacheable then
    if w.cwdCacheExists then
      {w with workingCache := some []}
    else
      {w with workingCache := some (w.workingCache.getD [])}
  else w

/-- Claim C9: the claim says the cache directory under the configured
working directory is wiped and recreated empty for every working-directory
argument; but the existence check uses the cwd-relative path, so when the
working directory differs from the process cwd (no cwd cache, stale
workingDir cache) the stale entries survive.  When the check does fire
(the default `workingDir = process.cwd()`), the wipe happens. -/
theorem claim_C9_bug :
    npmClientConstructorCache true ⟨false, some ["stale.json"]⟩ =
      ⟨false, some ["stale.json"]⟩ ∧
    npmClientConstructorCache true ⟨true, some ["stale.json"]⟩ = ⟨true, some []⟩ := by
  decide

/-! ### Claim C2 -/

/-- The extracted payload used in the C2 scenarios. -/
def modC2 : Module := {version := "1.0.0", dependencies := [], census := ⟨1, 1⟩}

/-- World where the archive bytes hash to something other than the declared
shasum. -/
def wC2mis : World :=
  {registry := [],
   tarballs := [("https://registry.npmjs.org/libfoo/-/libfoo-1.0.0.tgz",
     {hash := "deadbeef", extractOk := true, content := modC2})]}

/-- World where the digest matches and the unpack succeeds. -/
def wC2good : World :=
  {registry := [],
   tarballs := [("https://registry.npmjs.org/libfoo/-/libfoo-1.0.0.tgz",
     {hash := "sha-1.0.0", extractOk := true, content := modC2})]}

/-- World where the digest matches but reading/unpacking the archive stream
fails. -/
def wC2bad : World :=
  {registry := [],
   tarballs := [("https://registry.npmjs.org/libfoo/-/libfoo-1.0.0.tgz",
     {hash := "sha-1.0.0", extractOk := false, content := modC2})]}

/-- Mismatch outcome of `downloadModule`: integrity error, the partial file
deleted, nothing extracted. -/
def C2MismatchOutcome (w : World) (vr : VersionResponse) (dir : String) (st : St) : Prop :=
  (downloadModule w vr dir st).2 =
      .error (.integrity
        ("Downloaded file \"" ++ basename vr.dist.tarball ++ "\" has incorrect hash")) ∧
    tmpPathOf vr dir ∉ (downloadModule w vr dir st).1.tmpFiles ∧
    (downloadModule w vr dir st).1.modules = st.modules

/-- Match outcome of `downloadModule` when the unpack succeeds: content
extracted, temp file deleted. -/
def C2MatchOutcome (w : World) (vr : VersionResponse) (dir : String) (st : St) : Prop :=
  (downloadModule w vr dir st).2 = .ok () ∧
    tmpPathOf vr dir ∉ (downloadModule w vr dir st).1.tmpFiles ∧
    kvGet dir (downloadModule w vr dir st).1.modules =
      some ((kvGet vr.dist.tarball w.tarballs).getD default).content

/-- Claim C2 counterexample: the claim says that in no outcome does the
temporary archive file remain on disk; but when the digest matches and the
subsequent read/unpack of the archive fails, `downloadModule` throws before
the `fs.rmSync(destinationFilePath)` that follows `unpackModule`, and the
temporary archive file remains. -/
theorem claim_C2_counterexample :
    (downloadModule wC2bad (mkRec "1.0.0") "libfoo" stEmpty).2 =
        .error (.extraction "stream error unpacking libfoo-1.0.0.tgz") ∧
    tmpPathOf (mkRec "1.0.0") "libfoo" ∈
      (downloadModule wC2bad (mkRec "1.0.0") "libfoo" stEmpty).1.tmpFiles ∧
    (downloadModule wC2bad (mkRec "1.0.0") "libfoo" stEmpty).1.modules = [] := by
  decide

/-- Claim C2 amended: for every download, a digest mismatch deletes the
partial file, raises the integrity error and extracts nothing; a digest
match followed by a successful unpack extracts the archive into the
destination and deletes the temporary file.  (When the unpack fails after a
successful digest check the temporary file remains — the only outcome
excluded from the claim's final clause.) -/
theorem claim_C2_amended (w : World) (vr : VersionResponse) (dir : String) (st : St)
    (hnd : st.tmpFiles.Nodup) :
    (((kvGet vr.dist.tarball w.tarballs).getD default).hash ≠ vr.dist.shasum →
        C2MismatchOutcome w vr dir st) ∧
    (((kvGet vr.dist.tarball w.tarballs).getD default).hash = vr.dist.shasum →
      ((kvGet vr.dist.tarball w.tarballs).getD default).extractOk = true →
        C2MatchOutcome w vr dir st) := by
  constructor
  · intro hne
    unfold C2MismatchOutcome tmpPathOf
    simp only [downloadModule]
    rw [if_neg hne]
    refine ⟨rfl, ?_, rfl⟩
    rw [List.erase_cons_head]
    exact hnd.not_mem_erase
  · intro heq hok
    unfold C2MatchOutcome tmpPathOf
    simp only [downloadModule]
    rw [if_pos heq, if_pos hok]
    refine ⟨rfl, ?_, ?_⟩
    · rw [List.erase_cons_head]
      exact hnd.not_mem_erase
    · exact kvGet_kvSet_self dir _ _

/-- Witness for claim C2 amended: both branches at concrete worlds — the
mismatching download fails with the partial file removed, the matching one
extracts and removes the temp file. -/
theorem claim_C2_witness :
    C2MismatchOutcome wC2mis (mkRec "1.0.0") "libfoo" stEmpty ∧
    C2MatchOutcome wC2good (mkRec "1.0.0") "libfoo" stEmpty :=
  ⟨(claim_C2_amended wC2mis (mkRec "1.0.0") "libfoo" stEmpty (by decide)).1 (by decide),
   (claim_C2_amended wC2good (mkRec "1.0.0") "libfoo" stEmpty (by decide)).2
     (by decide) (by decide)⟩

/-! ### Claim C1 -/

def vrC1old : VersionResponse :=
  {name := "alib", version := "1.0.0", dependencies := [("olddep", "^1.0.0")], bin := none,
   dist := {tarball := "https://r/alib/-/alib-1.0.0.tgz", shasum := "h1",
            fileCount := 1, unpackedSize := 10}}

def vrC1new : VersionResponse :=
  {name := "alib", version := "2.0.0", dependencies := [("newdep", "^3.0.0")], bin := none,
   dist := {tarball := "https://r/alib/-/alib-2.0.0.tgz", shasum := "h2",
            fileCount := 2, unpackedSize := 20}}

def pkgC1 : PackageResponse :=
  {name := "alib", versions := [("1.0.0", vrC1old), ("2.0.0", vrC1new)]}

/-- The payload extracted from the 2.0.0 archive. -/
def modC1new : Module :=
  {version := "2.0.0", dependencies := [("newdep", "^3.0.0")], census := ⟨2, 20⟩}

def wC1 : World :=
  {registry := [("alib", {ok := true, status := 200, statusText := "OK", body := pkgC1})],
   tarballs := [("https://r/alib/-/alib-2.0.0.tgz",
     {hash := "h2", extractOk := true, content := modC1new})]}

/-- State with alib 1.0.0 installed, whose package.json declares
`{olddep: ^1.0.0}`. -/
def stC1 : St :=
  {stEmpty with modules :=
    [("alib", {version := "1.0.0", dependencies := [("olddep", "^1.0.0")], census := ⟨1, 10⟩})]}

/-- Claim C1: the claim (and the spec) say that after an upgrade the NEW
version's dependency requirements are merged into the next level.  The code
(`index.ts` line 102) instead merges `modulePackageJsonObject.dependencies`,
the package.json read from disk BEFORE the upgrade.  At the failing input —
alib 1.0.0 installed with dependencies {olddep}, required range `^2.0.0`,
registry offering 2.0.0 with dependencies {newdep} — the upgrade itself is
performed (2.0.0's archive is redownloaded and installed), yet the next
level is {olddep: ^1.0.0} and not {newdep: ^3.0.0}. -/
theorem claim_C1_bug :
    (installLevel wC1 [("alib", "^2.0.0")] stC1 []).2 = .ok [("olddep", "^1.0.0")] ∧
    kvGet "alib" (installLevel wC1 [("alib", "^2.0.0")] stC1 []).1.modules = some modC1new ∧
    (installLevel wC1 [("alib", "^2.0.0")] stC1 []).1.redownloads =
      ["https://r/alib/-/alib-2.0.0.tgz"] := by
  decide

/-! ### Claim C4 -/

def vrC4 : VersionResponse :=
  {name := "leftpad", version := "2.0.0", dependencies := [], bin := none,
   dist := {tarball := "https://r/leftpad/-/leftpad-2.0.0.tgz", shasum := "h4",
            fileCount := 1, unpackedSize := 1}}

def pkgC4 : PackageResponse :=
  {name := "leftpad", versions := [("2.0.0", vrC4)]}

def wC4 : World :=
  {registry := [("leftpad", {ok := true, status := 200, statusText := "OK", body := pkgC4})],
   tarballs := []}

/-- Claim C4 counterexample: the claim says an unsatisfiable range fails
the run with a ResolutionError naming the package and the range.  With only
2.0.0 published and range `^1.0.0` required for `leftpad`, the run aborts
instead with the generic TypeError from `undefined.dist` — a message that
names neither the package nor the range — and no resolution-specific error
exists anywhere in the code. -/
theorem claim_C4_counterexample :
    installLevel wC4 [("leftpad", "^1.0.0")] stEmpty [] =
      ({stEmpty with cache := [("leftpad", pkgC4)]},
       .error (.undefinedAccess "Cannot read properties of undefined (reading 'dist')")) ∧
    containsStr "Cannot read properties of undefined (reading 'dist')" "leftpad" = false ∧
    containsStr "Cannot read properties of undefined (reading 'dist')" "^1.0.0" = false ∧
    (installLevel wC4 [("leftpad", "^1.0.0")] stEmpty []).1.downloads = [] := by
  decide

/-- Claim C4 amended: when no published version satisfies the required
range on the fresh-install path, `semver.maxSatisfying` yields null,
`versions[null]` is `undefined`, and the dependency's installation aborts
with the JavaScript TypeError from reading `undefined.dist` — a generic
error that names neither the package nor the range. -/
theorem claim_C4_amended (w : World) (key rng : String) (st st1 : St)
    (pkgR : PackageResponse)
    (hled : truthy (kvGet key st.ledger) = false)
    (hget : getPackage w
        (if isVersionContainPackageName rng then extractPackageNameFromVersion rng else key)
        st = (st1, .ok pkgR))
    (hmod : kvGet key st1.modules = none)
    (hmax : maxSatisfying (pkgR.versions.map (·.1)) (extractVersionFromVersion rng) = none) :
    processDep w key rng st [] =
      (st1, .error (.undefinedAccess
        "Cannot read properties of undefined (reading 'dist')")) := by
  unfold processDep
  rw [hled]
  simp only [Bool.false_eq_true, if_false, hget, hmod, freshBranch, hmax]

/-- Witness for claim C4 amended: the concrete leftpad scenario. -/
theorem claim_C4_witness :
    processDep wC4 "leftpad" "^1.0.0" stEmpty [] =
      ({stEmpty with cache := [("leftpad", pkgC4)]},
       .error (.undefinedAccess
         "Cannot read properties of undefined (reading 'dist')")) :=
  claim_C4_amended wC4 "leftpad" "^1.0.0" stEmpty
    {stEmpty with cache := [("leftpad", pkgC4)]} pkgC4
    (by decide) (by decide) (by decide) (by decide)

/-! ### Claim C7: termination machinery

The dependency universe is a finite list of names; closure says every
dependency edge of the world stays inside the universe and declares a
range whose extracted version part is non-empty (the ledger stores that
part and JavaScript truthiness treats the empty string as unprocessed).
-/

theorem kvGet_mem {α : Type} (k : String) (v : α) :
    ∀ l : List (String × α), kvGet k l = some v → (k, v) ∈ l := by
  intro l
  induction l with
  | nil => intro h; exact Option.noConfusion h
  | cons p rest ih =>
    intro h
    rw [kvGet] at h
    by_cases hp : p.1 = k
    · rw [if_pos hp] at h
      injection h with h'
      have hpkv : p = (k, v) := Prod.ext hp h'
      rw [← hpkv]
      exact List.mem_cons_self p rest
    · rw [if_neg hp] at h
      exact List.mem_cons_of_mem _ (ih h)

/-- Every name in the dependency map is in the universe and carries a
range whose extracted version string is non-empty. -/
@[reducible] def depsClosed (univ : List String) (deps : List (String × String)) : Prop :=
  ∀ p ∈ deps, p.1 ∈ univ ∧ extractVersionFromVersion p.2 ≠ ""

/-- Every version record of the metadata has closed dependencies. -/
@[reducible] def pkgClosed (univ : List String) (pkg : PackageResponse) : Prop :=
  ∀ e ∈ pkg.versions, depsClosed univ e.2.dependencies

/-- Registry metadata and archive payloads only mention universe names. -/
@[reducible] def worldClosed (univ : List String) (w : World) : Prop :=
  (∀ e ∈ w.registry, pkgClosed univ e.2.body) ∧
  (∀ t ∈ w.tarballs, depsClosed univ t.2.content.dependencies)

/-- Installed modules and cached metadata only mention universe names. -/
@[reducible] def stClosed (univ : List String) (st : St) : Prop :=
  (∀ m ∈ st.modules, depsClosed univ m.2.dependencies) ∧
  (∀ c ∈ st.cache, pkgClosed univ c.2)

/-- A requirement level only mentions universe names, with non-empty
extracted version parts. -/
@[reducible] def levelClosed (univ : List String) (lvl : List (String × String)) : Prop :=
  ∀ p ∈ lvl, p.1 ∈ univ ∧ extractVersionFromVersion p.2 ≠ ""

/-- Instrumentation invariant: the processed log has no duplicates and
every logged name is truthy in the ledger. -/
@[reducible] def logLedger (st : St) : Prop :=
  st.processedLog.Nodup ∧ ∀ j ∈ st.processedLog, truthy (kvGet j st.ledger) = true

/-- Number of universe names not yet truthy in the ledger. -/
def unprocessedCount (univ : List String) (st : St) : Nat :=
  (univ.filter (fun k => !truthy (kvGet k st.ledger))).length

theorem tarball_content_closed (univ : List String) (w : World) (url : String)
    (hw : worldClosed univ w) :
    depsClosed univ ((kvGet url w.tarballs).getD default).content.dependencies := by
  cases h : kvGet url w.tarballs with
  | none => intro p hp; exact absurd hp (List.not_mem_nil p)
  | some a => exact hw.2 (url, a) (kvGet_mem _ _ _ h)

theorem getPackage_fields (w : World) (name : String) (st : St) :
    (getPackage w name st).1.modules = st.modules ∧
    (getPackage w name st).1.ledger = st.ledger ∧
    (getPackage w name st).1.processedLog = st.processedLog ∧
    (getPackage w name st).1.tmpFiles = st.tmpFiles ∧
    (getPackage w name st).1.binLinks = st.binLinks ∧
    (getPackage w name st).1.downloads = st.downloads ∧
    (getPackage w name st).1.redownloads = st.redownloads := by
  unfold getPackage
  cases kvGet name st.cache with
  | some p => exact ⟨rfl, rfl, rfl, rfl, rfl, rfl, rfl⟩
  | none =>
    cases downloadPackageInfo w name with
    | error e => exact ⟨rfl, rfl, rfl, rfl, rfl, rfl, rfl⟩
    | ok p => exact ⟨rfl, rfl, rfl, rfl, rfl, rfl, rfl⟩

theorem getPackage_closed (univ : List String) (w : World) (name : String) (st : St)
    (hw : worldClosed univ w) (hst : stClosed univ st) :
    stClosed univ (getPackage w name st).1 ∧
    (∀ pkg, (getPackage w name st).2 = .ok pkg → pkgClosed univ pkg) := by
  unfold getPackage
  cases hc : kvGet name st.cache with
  | some p =>
    refine ⟨hst, fun pkg hpkg => ?_⟩
    injection hpkg with h'
    rw [← h']
    exact hst.2 (name, p) (kvGet_mem _ _ _ hc)
  | none =>
    cases hd : downloadPackageInfo w name with
    | error e => exact ⟨hst, fun pkg hpkg => Except.noConfusion hpkg⟩
    | ok p =>
      have hp : pkgClosed univ p := by
        unfold downloadPackageInfo at hd
        by_cases hok : (fetchRegistry w name).ok = true
        · rw [if_pos hok] at hd
          injection hd with h'
          rw [← h']
          unfold fetchRegistry at hok ⊢
          cases hr : kvGet name w.registry with
          | none =>
            rw [hr] at hok
            exact Bool.noConfusion hok
          | some resp => exact hw.1 (name, resp) (kvGet_mem _ _ _ hr)
        · rw [if_neg hok] at hd
          exact Except.noConfusion hd
      refine ⟨⟨hst.1, fun c hc2 => ?_⟩, fun pkg hpkg => ?_⟩
      · rcases mem_kvSet c name p st.cache hc2 with h' | h'
        · rw [h']; exact hp
        · exact hst.2 c h'
      · injection hpkg with h'
        rw [← h']
        exact hp

theorem symlinkEntries_fields (d : String) :
    ∀ (entries : List (String × String)) (st : St),
      (symlinkEntries d entries st).1.modules = st.modules ∧
      (symlinkEntries d entries st).1.ledger = st.ledger ∧
      (symlinkEntries d entries st).1.processedLog = st.processedLog ∧
      (symlinkEntries d entries st).1.cache = st.cache ∧
      (symlinkEntries d entries st).1.tmpFiles = st.tmpFiles ∧
      (symlinkEntries d entries st).1.downloads = st.downloads ∧
      (symlinkEntries d entries st).1.redownloads = st.redownloads := by
  intro entries
  induction entries with
  | nil => intro st; exact ⟨rfl, rfl, rfl, rfl, rfl, rfl, rfl⟩
  | cons e rest ih =>
    intro st
    rw [symlinkEntries]
    by_cases hex : (kvGet e.1 st.binLinks).isSome = true
    · rw [if_pos hex]
      exact ⟨rfl, rfl, rfl, rfl, rfl, rfl, rfl⟩
    · rw [if_neg hex]
      exact ih _

theorem symlinkBinFiles_fields (vr : VersionResponse) (d : String) (st : St) :
    (symlinkBinFiles vr d st).1.modules = st.modules ∧
    (symlinkBinFiles vr d st).1.ledger = st.ledger ∧
    (symlinkBinFiles vr d st).1.processedLog = st.processedLog ∧
    (symlinkBinFiles vr d st).1.cache = st.cache ∧
    (symlinkBinFiles vr d st).1.tmpFiles = st.tmpFiles ∧
    (symlinkBinFiles vr d st).1.downloads = st.downloads ∧
    (symlinkBinFiles vr d st).1.redownloads = st.redownloads := by
  unfold symlinkBinFiles
  cases vr.bin with
  | none => exact ⟨rfl, rfl, rfl, rfl, rfl, rfl, rfl⟩
  | some b =>
    cases b with
    | inl s => exact symlinkEntries_fields d _ st
    | inr l => exact symlinkEntries_fields d _ st

theorem downloadModule_fields (w : World) (vr : VersionResponse) (dir : String) (st : St) :
    (downloadModule w vr dir st).1.ledger = st.ledger ∧
    (downloadModule w vr dir st).1.processedLog = st.processedLog ∧
    (downloadModule w vr dir st).1.cache = st.cache ∧
    (downloadModule w vr dir st).1.binLinks = st.binLinks ∧
    ∀ m ∈ (downloadModule w vr dir st).1.modules,
      m ∈ st.modules ∨ m.2 = ((kvGet vr.dist.tarball w.tarballs).getD default).content := by
  unfold downloadModule
  by_cases h1 : ((kvGet vr.dist.tarball w.tarballs).getD default).hash = vr.dist.shasum
  · rw [if_pos h1]
    by_cases h2 : ((kvGet vr.dist.tarball w.tarballs).getD default).extractOk = true
    · rw [if_pos h2]
      refine ⟨rfl, rfl, rfl, rfl, fun m hm => ?_⟩
      rcases mem_kvSet m dir _ _ hm with h' | h'
      · exact Or.inr (by rw [h'])
      · exact Or.inl h'
    · rw [if_neg h2]
      exact ⟨rfl, rfl, rfl, rfl, fun m hm => Or.inl hm⟩
  · rw [if_neg h1]
    exact ⟨rfl, rfl, rfl, rfl, fun m hm => Or.inl hm⟩

theorem redownloadModule_fields (w : World) (vr : VersionResponse) (dir : String) (st : St) :
    (redownloadModule w vr dir st).1.ledger = st.ledger ∧
    (redownloadModule w vr dir st).1.processedLog = st.processedLog ∧
    (redownloadModule w vr dir st).1.cache = st.cache ∧
    (redownloadModule w vr dir st).1.binLinks = st.binLinks ∧
    ∀ m ∈ (redownloadModule w vr dir st).1.modules,
      m ∈ st.modules ∨ m.2 = ((kvGet vr.dist.tarball w.tarballs).getD default).content := by
  unfold redownloadModule kvRemove
  have h := downloadModule_fields w vr dir
    {st with
      modules := st.modules.filter (fun p => p.1 ≠ dir),
      tmpFiles := st.tmpFiles.filter (fun p => !((dir ++ "/").data.isPrefixOf p.data)),
      redownloads := st.redownloads ++ [vr.dist.tarball]}
  refine ⟨h.1, h.2.1, h.2.2.1, h.2.2.2.1, fun m hm => ?_⟩
  rcases h.2.2.2.2 m hm with h' | h'
  · exact Or.inl (List.mem_of_mem_filter h')
  · exact Or.inr h'

/-- Invariants of the redownload-then-symlink tail shared by both
subbranches of the installed branch. -/
theorem redsym_spec (univ : List String) (w : World) (cur : VersionResponse)
    (key : String) (st1 : St)
    (hw : worldClosed univ w)
    (hmods : ∀ m ∈ st1.modules, depsClosed univ m.2.dependencies) :
    ∀ res : St × Except NErr Unit,
      res = (match redownloadModule w cur key st1 with
             | (st2, .error e) => (st2, .error e)
             | (st2, .ok _) => symlinkBinFiles cur key st2) →
      res.1.ledger = st1.ledger ∧ res.1.processedLog = st1.processedLog ∧
      res.1.cache = st1.cache ∧
      ∀ m ∈ res.1.modules, depsClosed univ m.2.dependencies := by
  intro res hres
  have hf := redownloadModule_fields w cur key st1
  have hcl : ∀ m ∈ (redownloadModule w cur key st1).1.modules,
      depsClosed univ m.2.dependencies := by
    intro m hm
    rcases hf.2.2.2.2 m hm with h' | h'
    · exact hmods m h'
    · rw [h']; exact tarball_content_closed univ w _ hw
  rcases hrd : redownloadModule w cur key st1 with ⟨st2, r2⟩
  rw [hrd] at hf hcl
  cases r2 with
  | error e =>
    rw [hrd] at hres
    rw [hres]
    exact ⟨hf.1, hf.2.1, hf.2.2.1, hcl⟩
  | ok u =>
    rw [hrd] at hres
    have hs := symlinkBinFiles_fields cur key st2
    rw [hres]
    refine ⟨?_, ?_, ?_, ?_⟩
    · exact hs.2.1.trans hf.1
    · exact hs.2.2.1.trans hf.2.1
    · exact hs.2.2.2.1.trans hf.2.2.1
    · intro m hm
      rw [hs.1] at hm
      exact hcl m hm

theorem installedBranch_spec (univ : List String) (w : World) (key rv : String)
    (pkg : PackageResponse) (installed : Module) (st1 : St)
    (hw : worldClosed univ w)
    (hmods : ∀ m ∈ st1.modules, depsClosed univ m.2.dependencies) :
    (installedBranch w key rv pkg installed st1).1.ledger = st1.ledger ∧
    (installedBranch w key rv pkg installed st1).1.processedLog = st1.processedLog ∧
    (installedBranch w key rv pkg installed st1).1.cache = st1.cache ∧
    ∀ m ∈ (installedBranch w key rv pkg installed st1).1.modules,
      depsClosed univ m.2.dependencies := by
  unfold installedBranch
  by_cases hsat : satisfiesB installed.version rv = true
  · rw [if_pos hsat]
    cases kvGet installed.version pkg.versions with
    | none => exact ⟨rfl, rfl, rfl, hmods⟩
    | some cur =>
      dsimp only
      by_cases hval : isModuleValid cur installed = true
      · rw [if_pos hval]
        have hs := symlinkBinFiles_fields cur key st1
        exact ⟨hs.2.1, hs.2.2.1, hs.2.2.2.1, by rw [hs.1]; exact hmods⟩
      · rw [if_neg hval]
        exact redsym_spec univ w cur key st1 hw hmods _ rfl
  · rw [if_neg hsat]
    cases maxSatisfying (pkg.versions.map (·.1)) rv with
    | none => exact ⟨rfl, rfl, rfl, hmods⟩
    | some nv =>
      dsimp only
      cases kvGet nv pkg.versions with
      | none => exact ⟨rfl, rfl, rfl, hmods⟩
      | some newRecord =>
        dsimp only
        exact redsym_spec univ w newRecord key st1 hw hmods _ rfl

theorem freshBranch_spec (univ : List String) (w : World) (key rv : String)
    (pkg : PackageResponse) (st1 : St)
    (hw : worldClosed univ w) (hpkg : pkgClosed univ pkg)
    (hmods : ∀ m ∈ st1.modules, depsClosed univ m.2.dependencies) :
    (freshBranch w key rv pkg st1).1.ledger = st1.ledger ∧
    (freshBranch w key rv pkg st1).1.processedLog = st1.processedLog ∧
    (freshBranch w key rv pkg st1).1.cache = st1.cache ∧
    (∀ m ∈ (freshBranch w key rv pkg st1).1.modules, depsClosed univ m.2.dependencies) ∧
    ∀ deps, (freshBranch w key rv pkg st1).2 = .ok deps → depsClosed univ deps := by
  unfold freshBranch
  cases maxSatisfying (pkg.versions.map (·.1)) rv with
  | none => exact ⟨rfl, rfl, rfl, hmods, fun deps h => Except.noConfusion h⟩
  | some vd =>
    dsimp only
    cases hv : kvGet vd pkg.versions with
    | none => exact ⟨rfl, rfl, rfl, hmods, fun deps h => Except.noConfusion h⟩
    | some rec2 =>
      dsimp only
      have hrecdeps : depsClosed univ rec2.dependencies :=
        hpkg (vd, rec2) (kvGet_mem _ _ _ hv)
      have hf := downloadModule_fields w rec2 key st1
      have hcl : ∀ m ∈ (downloadModule w rec2 key st1).1.modules,
          depsClosed univ m.2.dependencies := by
        intro m hm
        rcases hf.2.2.2.2 m hm with h' | h'
        · exact hmods m h'
        · rw [h']; exact tarball_content_closed univ w _ hw
      rcases hdl : downloadModule w rec2 key st1 with ⟨st2, r2⟩
      rw [hdl] at hf hcl
      cases r2 with
      | error e => exact ⟨hf.1, hf.2.1, hf.2.2.1, hcl, fun deps h => Except.noConfusion h⟩
      | ok u =>
        dsimp only
        have hs := symlinkBinFiles_fields rec2 key st2
        rcases hsy : symlinkBinFiles rec2 key st2 with ⟨st3, r3⟩
        rw [hsy] at hs
        cases r3 with
        | error e =>
          exact ⟨hs.2.1.trans hf.1, hs.2.2.1.trans hf.2.1, hs.2.2.2.1.trans hf.2.2.1,
            (by rw [hs.1]; exact hcl), fun deps h => Except.noConfusion h⟩
        | ok u2 =>
          refine ⟨hs.2.1.trans hf.1, hs.2.2.1.trans hf.2.1, hs.2.2.2.1.trans hf.2.2.1,
            (by rw [hs.1]; exact hcl), fun deps h => ?_⟩
          injection h with h'
          rw [← h']
          exact hrecdeps

theorem truthy_some_ne (s : String) (h : s ≠ "") : truthy (some s) = true := by
  rcases s with ⟨d⟩
  cases d with
  | nil => exact absurd rfl h
  | cons c t => rfl

/-- Behaviour of one loop-body execution, for the termination and
at-most-once arguments: closure and the log/ledger invariants are
preserved, ledger truthiness is monotone, and a successful non-skip
records the key truthy. -/
theorem processDep_spec (univ : List String) (w : World) (key rng : String)
    (st : St) (acc : List (String × String))
    (hw : worldClosed univ w) (hst : stClosed univ st)
    (hrng : extractVersionFromVersion rng ≠ "")
    (hacc : levelClosed univ acc) (hlog : logLedger st) :
    stClosed univ (processDep w key rng st acc).1 ∧
    logLedger (processDep w key rng st acc).1 ∧
    (∀ j, truthy (kvGet j st.ledger) = true →
      truthy (kvGet j (processDep w key rng st acc).1.ledger) = true) ∧
    ∀ next1, (processDep w key rng st acc).2 = .ok next1 →
      levelClosed univ next1 ∧
      (((processDep w key rng st acc).1 = st ∧ next1 = acc) ∨
        (truthy (kvGet key st.ledger) = false ∧
         truthy (kvGet key (processDep w key rng st acc).1.ledger) = true)) := by
  unfold processDep
  by_cases hskip : truthy (kvGet key st.ledger) = true
  · rw [if_pos hskip]
    refine ⟨hst, hlog, fun j hj => hj, fun next1 h => ?_⟩
    injection h with h'
    exact ⟨h' ▸ hacc, Or.inl ⟨rfl, h'.symm⟩⟩
  · rw [if_neg hskip]
    dsimp only
    have hgc := getPackage_closed univ w
      (if isVersionContainPackageName rng = true then extractPackageNameFromVersion rng else key)
      st hw hst
    have hgf := getPackage_fields w
      (if isVersionContainPackageName rng = true then extractPackageNameFromVersion rng else key)
      st
    rcases hgp : getPackage w
        (if isVersionContainPackageName rng = true then extractPackageNameFromVersion rng else key)
        st with ⟨st1, rg⟩
    rw [hgp] at hgc hgf
    cases rg with
    | error e =>
      refine ⟨hgc.1, ⟨?_, ?_⟩, ?_, fun next1 h => Except.noConfusion h⟩
      · rw [hgf.2.2.1]; exact hlog.1
      · intro j hj
        rw [hgf.2.2.1] at hj
        rw [hgf.2.1]
        exact hlog.2 j hj
      · intro j hj
        rw [hgf.2.1]
        exact hj
    | ok pkg =>
      dsimp only
      have hpkgc : pkgClosed univ pkg := hgc.2 pkg rfl
      cases hm : kvGet key st1.modules with
      | some installed =>
        dsimp only
        have hinstdeps : depsClosed univ installed.dependencies :=
          hgc.1.1 (key, installed) (kvGet_mem _ _ _ hm)
        have hib := installedBranch_spec univ w key (extractVersionFromVersion rng)
          pkg installed st1 hw hgc.1.1
        rcases hbr : installedBranch w key (extractVersionFromVersion rng)
            pkg installed st1 with ⟨st3, r3⟩
        rw [hbr] at hib
        cases r3 with
        | error e =>
          refine ⟨⟨hib.2.2.2, ?_⟩, ⟨?_, ?_⟩, ?_, fun next1 h => Except.noConfusion h⟩
          · rw [hib.2.2.1]; exact hgc.1.2
          · rw [hib.2.1, hgf.2.2.1]; exact hlog.1
          · intro j hj
            rw [hib.2.1, hgf.2.2.1] at hj
            rw [hib.1, hgf.2.1]
            exact hlog.2 j hj
          · intro j hj
            rw [hib.1, hgf.2.1]
            exact hj
        | ok u =>
          dsimp only
          have hkeyledger :
              truthy (kvGet key (kvSet key (extractVersionFromVersion rng) st3.ledger)) = true := by
            rw [kvGet_kvSet_self]
            exact truthy_some_ne _ hrng
          have hmono : ∀ j, truthy (kvGet j st.ledger) = true →
              truthy (kvGet j (kvSet key (extractVersionFromVersion rng) st3.ledger)) = true := by
            intro j hj
            by_cases hjk : key = j
            · rw [← hjk]; exact hkeyledger
            · rw [kvGet_kvSet_ne key j _ hjk, hib.1, hgf.2.1]
              exact hj
          refine ⟨⟨hib.2.2.2, ?_⟩, ⟨?_, ?_⟩, ?_, fun next1 h => ?_⟩
          · rw [hib.2.2.1]; exact hgc.1.2
          · rw [hib.2.1, hgf.2.2.1]
            have hkn : key ∉ st.processedLog := by
              intro hk
              exact hskip (hlog.2 key hk)
            simp [List.nodup_append, hlog.1, hkn]
          · intro j hj
            rw [hib.2.1, hgf.2.2.1] at hj
            rcases List.mem_append.mp hj with h' | h'
            · exact hmono j (hlog.2 j h')
            · have : j = key := by simpa using h'
              rw [this]; exact hkeyledger
          · intro j hj
            exact hmono j hj
          · injection h with h'
            refine ⟨?_, Or.inr ⟨by simpa using hskip, hkeyledger⟩⟩
            rw [← h']
            intro p hp
            rcases mem_kvMerge p _ _ hp with h2 | h2
            · exact hacc p h2
            · exact hinstdeps p h2
      | none =>
        dsimp only
        have hfb := freshBranch_spec univ w key (extractVersionFromVersion rng)
          pkg st1 hw hpkgc hgc.1.1
        rcases hbr : freshBranch w key (extractVersionFromVersion rng)
            pkg st1 with ⟨st3, r3⟩
        rw [hbr] at hfb
        cases r3 with
        | error e =>
          refine ⟨⟨hfb.2.2.2.1, ?_⟩, ⟨?_, ?_⟩, ?_, fun next1 h => Except.noConfusion h⟩
          · rw [hfb.2.2.1]; exact hgc.1.2
          · rw [hfb.2.1, hgf.2.2.1]; exact hlog.1
          · intro j hj
            rw [hfb.2.1, hgf.2.2.1] at hj
            rw [hfb.1, hgf.2.1]
            exact hlog.2 j hj
          · intro j hj
            rw [hfb.1, hgf.2.1]
            exact hj
        | ok deps =>
          dsimp only
          have hdeps : depsClosed univ deps := hfb.2.2.2.2 deps rfl
          have hkeyledger :
              truthy (kvGet key (kvSet key (extractVersionFromVersion rng) st3.ledger)) = true := by
            rw [kvGet_kvSet_self]
            exact truthy_some_ne _ hrng
          have hmono : ∀ j, truthy (kvGet j st.ledger) = true →
              truthy (kvGet j (kvSet key (extractVersionFromVersion rng) st3.ledger)) = true := by
            intro j hj
            by_cases hjk : key = j
            · rw [← hjk]; exact hkeyledger
            · rw [kvGet_kvSet_ne key j _ hjk, hfb.1, hgf.2.1]
              exact hj
          refine ⟨⟨hfb.2.2.2.1, ?_⟩, ⟨?_, ?_⟩, ?_, fun next1 h => ?_⟩
          · rw [hfb.2.2.1]; exact hgc.1.2
          · rw [hfb.2.1, hgf.2.2.1]
            have hkn : key ∉ st.processedLog := by
              intro hk
              exact hskip (hlog.2 key hk)
            simp [List.nodup_append, hlog.1, hkn]
          · intro j hj
            rw [hfb.2.1, hgf.2.2.1] at hj
            rcases List.mem_append.mp hj with h' | h'
            · exact hmono j (hlog.2 j h')
            · have : j = key := by simpa using h'
              rw [this]; exact hkeyledger
          · intro j hj
            exact hmono j hj
          · injection h with h'
            refine ⟨?_, Or.inr ⟨by simpa using hskip, hkeyledger⟩⟩
            rw [← h']
            intro p hp
            rcases mem_kvMerge p _ _ hp with h2 | h2
            · exact hacc p h2
            · exact hdeps p h2

theorem length_filter_mono {α : Type} (p q : α → Bool) :
    ∀ l : List α, (∀ x ∈ l, q x = true → p x = true) →
      (l.filter q).length ≤ (l.filter p).length := by
  intro l
  induction l with
  | nil => intro _; exact Nat.le_refl 0
  | cons a t ih =>
    intro hmono
    have ht := ih (fun x hx => hmono x (List.mem_cons_of_mem _ hx))
    by_cases hq : q a = true
    · have hp := hmono a (List.mem_cons_self a t) hq
      rw [List.filter_cons, List.filter_cons, if_pos hq, if_pos hp]
      simpa using ht
    · rw [List.filter_cons, if_neg hq]
      by_cases hp : p a = true
      · rw [List.filter_cons, if_pos hp]
        exact Nat.le_succ_of_le ht
      · rw [List.filter_cons, if_neg hp]
        exact ht

theorem length_filter_lt {α : Type} (p q : α → Bool) :
    ∀ l : List α, (∀ x ∈ l, q x = true → p x = true) →
      ∀ k ∈ l, p k = true → q k = false →
        (l.filter q).length < (l.filter p).length := by
  intro l
  induction l with
  | nil => intro _ k hk; exact absurd hk (List.not_mem_nil k)
  | cons a t ih =>
    intro hmono k hk hpk hqk
    have hmt : ∀ x ∈ t, q x = true → p x = true :=
      fun x hx => hmono x (List.mem_cons_of_mem _ hx)
    rcases List.mem_cons.mp hk with h' | h'
    · subst h'
      rw [List.filter_cons, List.filter_cons, if_neg (by rw [hqk]; exact Bool.noConfusion),
        if_pos hpk]
      exact Nat.lt_succ_of_le (length_filter_mono p q t hmt)
    · have ht := ih hmt k h' hpk hqk
      by_cases hq : q a = true
      · have hp := hmono a (List.mem_cons_self a t) hq
        rw [List.filter_cons, List.filter_cons, if_pos hq, if_pos hp]
        simp only [List.length_cons]
        exact Nat.succ_lt_succ ht
      · rw [List.filter_cons, if_neg hq]
        by_cases hp : p a = true
        · rw [List.filter_cons, if_pos hp]
          exact Nat.lt_succ_of_lt ht
        · rw [List.filter_cons, if_neg hp]
          exact ht

/-- One level of `installDependencies`: closure and log invariants are
preserved, truthiness is monotone, and a successful level either processed
nothing (state unchanged, next level equal to the accumulator) or strictly
reduced the number of unprocessed universe names. -/
theorem installLevel_spec (univ : List String) (w : World)
    (hw : worldClosed univ w) :
    ∀ (lvl : List (String × String)) (st : St) (acc : List (String × String)),
      stClosed univ st → levelClosed univ lvl → levelClosed univ acc → logLedger st →
      stClosed univ (installLevel w lvl st acc).1 ∧
      logLedger (installLevel w lvl st acc).1 ∧
      (∀ j, truthy (kvGet j st.ledger) = true →
        truthy (kvGet j (installLevel w lvl st acc).1.ledger) = true) ∧
      ∀ next2, (installLevel w lvl st acc).2 = .ok next2 →
        levelClosed univ next2 ∧
        (((installLevel w lvl st acc).1 = st ∧ next2 = acc) ∨
          unprocessedCount univ (installLevel w lvl st acc).1 < unprocessedCount univ st) := by
  intro lvl
  induction lvl with
  | nil =>
    intro st acc hst _ hacc hlog
    refine ⟨hst, hlog, fun j hj => hj, fun next2 h => ?_⟩
    injection h with h'
    exact ⟨h' ▸ hacc, Or.inl ⟨rfl, h'.symm⟩⟩
  | cons kr rest ih =>
    intro st acc hst hlvl hacc hlog
    rcases kr with ⟨key, rng⟩
    have hkr := hlvl (key, rng) (List.mem_cons_self _ rest)
    have hrest : levelClosed univ rest := fun p hp => hlvl p (List.mem_cons_of_mem _ hp)
    have hpd := processDep_spec univ w key rng st acc hw hst hkr.2 hacc hlog
    rw [installLevel]
    rcases hps : processDep w key rng st acc with ⟨st', r'⟩
    rw [hps] at hpd
    cases r' with
    | error e =>
      exact ⟨hpd.1, hpd.2.1, hpd.2.2.1, fun next2 h => Except.noConfusion h⟩
    | ok next1 =>
      have hok := hpd.2.2.2 next1 rfl
      have ihr := ih st' next1 hpd.1 hrest hok.1 hpd.2.1
      refine ⟨ihr.1, ihr.2.1, fun j hj => ihr.2.2.1 j (hpd.2.2.1 j hj),
        fun next2 h => ?_⟩
      have hi2 := ihr.2.2.2 next2 h
      refine ⟨hi2.1, ?_⟩
      rcases hok.2 with ⟨hsteq, hn1⟩ | ⟨hbefore, hafter⟩
      · rcases hi2.2 with ⟨hfeq, hn2⟩ | hlt
        · exact Or.inl ⟨hfeq.trans hsteq, hn2.trans hn1⟩
        · exact Or.inr (by rw [← hsteq]; exact hlt)
      · have hmeas : unprocessedCount univ st' < unprocessedCount univ st := by
          unfold unprocessedCount
          refine length_filter_lt _ _ univ ?_ key hkr.1 ?_ ?_
          · intro x _ hqx
            cases htb : truthy (kvGet x st.ledger) with
            | false => rfl
            | true =>
              have := hpd.2.2.1 x htb
              rw [this] at hqx
              exact absurd hqx (by decide)
          · rw [hbefore]; rfl
          · rw [hafter]; rfl
        rcases hi2.2 with ⟨hfeq, _⟩ | hlt
        · exact Or.inr (by rw [hfeq]; exact hmeas)
        · exact Or.inr (Nat.lt_trans hlt hmeas)

/-- Invariant carried across loop iterations. -/
def rsInv (univ : List String) (rs : RunState) : Prop :=
  stClosed univ rs.st ∧ levelClosed univ rs.level ∧ logLedger rs.st

theorem levelIter_inv (univ : List String) (w : World) (hw : worldClosed univ w) :
    ∀ (n : Nat) (rs : RunState), rsInv univ rs → rsInv univ (levelIter w n rs) := by
  intro n
  induction n with
  | zero => intro rs h; exact h
  | succ n ih =>
    intro rs h
    rw [levelIter]
    by_cases he : rs.err.isSome = true
    · rw [if_pos he]; exact h
    · rw [if_neg he]
      by_cases hl : rs.level.isEmpty = true
      · rw [if_pos hl]; exact h
      · rw [if_neg hl]
        have hil := installLevel_spec univ w hw rs.level rs.st [] h.1 h.2.1
          (fun p hp => absurd hp (List.not_mem_nil p)) h.2.2
        rcases hr : installLevel w rs.level rs.st [] with ⟨st', r'⟩
        rw [hr] at hil
        cases r' with
        | error e => exact ⟨hil.1, h.2.1, hil.2.1⟩
        | ok next =>
          exact ih _ ⟨hil.1, (hil.2.2.2 next rfl).1, hil.2.1⟩

theorem levelIter_succ (w : World) (n : Nat) (rs : RunState) :
    levelIter w (n + 1) rs =
      (if rs.err.isSome then rs
       else if rs.level.isEmpty then rs
       else
         match installLevel w rs.level rs.st [] with
         | (st', .error e) => {st := st', level := rs.level, err := some e}
         | (st', .ok next) => levelIter w n {st := st', level := next, err := none}) := by
  rw [levelIter]

theorem levelIter_term (univ : List String) (w : World) (hw : worldClosed univ w) :
    ∀ (bound : Nat) (st : St) (lvl : List (String × String)),
      unprocessedCount univ st ≤ bound →
      stClosed univ st → levelClosed univ lvl → logLedger st →
      ∃ n, runDone (levelIter w n ⟨st, lvl, none⟩) = true := by
  intro bound
  induction bound with
  | zero =>
    intro st lvl hb hst hlvl hlog
    by_cases hl : lvl.isEmpty = true
    · exact ⟨0, by simp [levelIter, runDone, hl]⟩
    · have hil := installLevel_spec univ w hw lvl st [] hst hlvl
        (fun p hp => absurd hp (List.not_mem_nil p)) hlog
      rcases hr : installLevel w lvl st [] with ⟨st', r'⟩
      rw [hr] at hil
      cases r' with
      | error e =>
        refine ⟨0 + 1, ?_⟩
        rw [levelIter_succ]
        rw [if_neg (by simp), if_neg hl, hr]
        rfl
      | ok next =>
        rcases (hil.2.2.2 next rfl).2 with ⟨_, hn⟩ | hlt
        · refine ⟨0 + 1, ?_⟩
          rw [levelIter_succ]
          rw [if_neg (by simp), if_neg hl, hr]
          rw [hn]
          rfl
        · have hlt2 : unprocessedCount univ st' < unprocessedCount univ st := hlt
          omega
  | succ bound ih =>
    intro st lvl hb hst hlvl hlog
    by_cases hl : lvl.isEmpty = true
    · exact ⟨0, by simp [levelIter, runDone, hl]⟩
    · have hil := installLevel_spec univ w hw lvl st [] hst hlvl
        (fun p hp => absurd hp (List.not_mem_nil p)) hlog
      rcases hr : installLevel w lvl st [] with ⟨st', r'⟩
      rw [hr] at hil
      cases r' with
      | error e =>
        refine ⟨0 + 1, ?_⟩
        rw [levelIter_succ]
        rw [if_neg (by simp), if_neg hl, hr]
        rfl
      | ok next =>
        rcases (hil.2.2.2 next rfl).2 with ⟨_, hn⟩ | hlt
        · refine ⟨0 + 1, ?_⟩
          rw [levelIter_succ]
          rw [if_neg (by simp), if_neg hl, hr]
          rw [hn]
          rfl
        · have hlt2 : unprocessedCount univ st' < unprocessedCount univ st := hlt
          have := ih st' next (by omega) hil.1 (hil.2.2.2 next rfl).1 hil.2.1
          rcases this with ⟨n, hn⟩
          refine ⟨n + 1, ?_⟩
          have hstep : levelIter w (n + 1) ⟨st, lvl, none⟩ =
              levelIter w n ⟨st', next, none⟩ := by
            rw [levelIter_succ]
            rw [if_neg (by simp), if_neg hl, hr]
          rw [hstep]
          exact hn

/-- Claim C7 amended: under the closure hypotheses — every dependency edge
of the registry, of the archive payloads, of the installed modules and of
the root level targets a name in the finite universe AND carries a range
whose extracted version part is non-empty — the level-by-level loop reaches
a resting point (empty level or propagated exception) and the processed log
never repeats a name, because the ledger records each processed name with
its (non-empty, hence truthy) version string and truthy names are skipped.
The non-emptiness proviso is forced by the counterexample: a range whose
extracted version part is the empty string is recorded as a falsy ledger
value and is re-processed forever. -/
theorem claim_C7_amended (univ : List String) (w : World) (st0 : St)
    (roots : List (String × String))
    (hw : worldClosed univ w) (hst : stClosed univ st0)
    (hroots : levelClosed univ roots) (hlog : logLedger st0) :
    (∃ n, runDone (levelIter w n ⟨st0, roots, none⟩) = true) ∧
    ∀ n, ((levelIter w n ⟨st0, roots, none⟩).st.processedLog).Nodup := by
  constructor
  · exact levelIter_term univ w hw (unprocessedCount univ st0) st0 roots
      (Nat.le_refl _) hst hroots hlog
  · intro n
    exact (levelIter_inv univ w hw n ⟨st0, roots, none⟩ ⟨hst, hroots, hlog⟩).2.2.1

/-! C7 witness fixture: a two-package cycle a ⇄ b. -/

def vrA : VersionResponse :=
  {name := "a", version := "1.0.0", dependencies := [("b", "^1.0.0")], bin := none,
   dist := {tarball := "TA", shasum := "ha", fileCount := 1, unpackedSize := 1}}

def vrB : VersionResponse :=
  {name := "b", version := "1.0.0", dependencies := [("a", "^1.0.0")], bin := none,
   dist := {tarball := "TB", shasum := "hb", fileCount := 1, unpackedSize := 1}}

def wC7 : World :=
  {registry :=
    [("a", {ok := true, status := 200, statusText := "OK",
            body := {name := "a", versions := [("1.0.0", vrA)]}}),
     ("b", {ok := true, status := 200, statusText := "OK",
            body := {name := "b", versions := [("1.0.0", vrB)]}})],
   tarballs :=
    [("TA", {hash := "ha", extractOk := true,
             content := {version := "1.0.0", dependencies := [("b", "^1.0.0")], census := ⟨1, 1⟩}}),
     ("TB", {hash := "hb", extractOk := true,
             content := {version := "1.0.0", dependencies := [("a", "^1.0.0")], census := ⟨1, 1⟩}})]}

/-- Witness for claim C7 amended: the cyclic graph a requires b, b requires
a (ranges `^1.0.0`) terminates from a fresh state and never processes a
name twice. -/
theorem claim_C7_witness :
    (∃ n, runDone (levelIter wC7 n ⟨stEmpty, [("a", "^1.0.0")], none⟩) = true) ∧
    ∀ n, ((levelIter wC7 n ⟨stEmpty, [("a", "^1.0.0")], none⟩).st.processedLog).Nodup :=
  claim_C7_amended ["a", "b"] wC7 stEmpty [("a", "^1.0.0")]
    (by decide) (by decide) (by decide) (by decide)

/-! C7 counterexample fixture: a self-dependency with the empty range.  The
ledger stores the extracted version string `""`, which is falsy, so the
name is re-processed at every level forever. -/

def vrX : VersionResponse :=
  {name := "a", version := "1.0.0", dependencies := [("a", "")], bin := none,
   dist := {tarball := "TX", shasum := "hx", fileCount := 1, unpackedSize := 1}}

def pkgX : PackageResponse := {name := "a", versions := [("1.0.0", vrX)]}

def modX : Module := {version := "1.0.0", dependencies := [("a", "")], census := ⟨1, 1⟩}

def wC7x : World :=
  {registry := [("a", {ok := true, status := 200, statusText := "OK", body := pkgX})],
   tarballs := [("TX", {hash := "hx", extractOk := true, content := modX})]}

/-- Initial state of the counterexample run: module a already installed
(e.g. by a previous run), fresh cache and ledger. -/
def stX0 : St := {stEmpty with modules := [("a", modX)]}

/-- State after the first round of the counterexample run. -/
def stX1 : St :=
  {modules := [("a", modX)], tmpFiles := [], binLinks := [], cache := [("a", pkgX)],
   ledger := [("a", "")], downloads := [], redownloads := [], processedLog := ["a"]}

/-- Core of the looping states of the counterexample run. -/
@[reducible] def coreX (st : St) : Prop :=
  kvGet "a" st.cache = some pkgX ∧
  kvGet "a" st.modules = some modX ∧
  kvGet "a" st.ledger = some ""

theorem stepX_ib (st : St) :
    installedBranch wC7x "a" "" pkgX modX st = (st, .ok ()) := rfl

theorem stepX_pd (st : St) (hc : kvGet "a" st.cache = some pkgX)
    (hm : kvGet "a" st.modules = some modX)
    (hl : kvGet "a" st.ledger = some "") :
    processDep wC7x "a" "" st [] =
      ({st with ledger := kvSet "a" "" st.ledger,
                processedLog := st.processedLog ++ ["a"]}, .ok [("a", "")]) := by
  unfold processDep
  rw [hl]
  rw [if_neg (by decide : ¬ truthy (some "") = true)]
  dsimp only
  rw [show extractVersionFromVersion "" = "" from rfl]
  rw [show (if isVersionContainPackageName "" = true
        then extractPackageNameFromVersion "" else "a") = "a" from rfl]
  unfold getPackage
  rw [hc]
  dsimp only
  rw [hm]
  dsimp only
  rw [stepX_ib st]
  rfl

theorem stepX_il (st : St) (hc : kvGet "a" st.cache = some pkgX)
    (hm : kvGet "a" st.modules = some modX)
    (hl : kvGet "a" st.ledger = some "") :
    installLevel wC7x [("a", "")] st [] =
      ({st with ledger := kvSet "a" "" st.ledger,
                processedLog := st.processedLog ++ ["a"]}, .ok [("a", "")]) := by
  rw [installLevel]
  rw [stepX_pd st hc hm hl]
  rfl

theorem stepX_core (st : St) (h : coreX st) :
    coreX {st with ledger := kvSet "a" "" st.ledger,
                   processedLog := st.processedLog ++ ["a"]} :=
  ⟨h.1, h.2.1, kvGet_kvSet_self "a" "" st.ledger⟩

theorem neverDoneX :
    ∀ (n : Nat) (st : St), coreX st →
      runDone (levelIter wC7x n ⟨st, [("a", "")], none⟩) = false := by
  intro n
  induction n with
  | zero => intro st _; rfl
  | succ n ih =>
    intro st h
    rw [levelIter_succ]
    rw [if_neg (by simp), if_neg (by simp)]
    rw [stepX_il st h.1 h.2.1 h.2.2]
    exact ih _ (stepX_core st h)

/-- Claim C7 counterexample: the claim quantifies over every finite
dependency graph, but for the graph in which `a`'s requirement range is the
empty string (a range node-semver accepts and which every version
satisfies) the run never terminates: the ledger stores the extracted
version string `""`, JavaScript truthiness treats it as unprocessed, and
`a` is reinstall-checked and re-merged at every level forever. -/
theorem claim_C7_counterexample :
    ¬ ∃ n, runDone (levelIter wC7x n ⟨stX0, [("a", "")], none⟩) = true := by
  rintro ⟨n, hn⟩
  cases n with
  | zero => exact absurd hn (by decide)
  | succ n =>
    have h1 : levelIter wC7x (n + 1) ⟨stX0, [("a", "")], none⟩ =
        levelIter wC7x n ⟨stX1, [("a", "")], none⟩ := by
      rw [levelIter_succ]
      rw [if_neg (by simp), if_neg (by simp)]
      rw [show installLevel wC7x [("a", "")] stX0 [] = (stX1, Except.ok [("a", "")]) from
        by decide]
    rw [h1] at hn
    have h2 := neverDoneX n stX1 (by decide)
    rw [hn] at h2
    exact Bool.noConfusion h2

/-! ### Claim C8: idempotence machinery -/

/-- Cached metadata agrees with the registry (as established by any run
that starts from the wiped cache). -/
@[reducible] def cacheOK (w : World) (cache : List (String × PackageResponse)) : Prop :=
  ∀ c ∈ cache, (kvGet c.1 w.registry).map RegResponse.ok = some true ∧
    (kvGet c.1 w.registry).map RegResponse.body = some c.2

/-- All bin link names a record declares are already present (as a first
run's `symlinkBinFiles` leaves them). -/
def binsPresentB (links : List (String × String)) (vr : VersionResponse) : Bool :=
  match vr.bin with
  | none => true
  | some (.inl _) => (kvGet vr.name links).isSome
  | some (.inr l) => l.all (fun e => (kvGet e.1 links).isSome)

/-- One requirement is fully satisfied by the installed tree: the module
directory exists, its installed version satisfies the extracted range, the
registry still publishes that version, the directory census matches the
declared counts, the bin links exist, and its dependencies stay within the
requirement set. -/
def goodReqB (w : World) (st0 : St) (allReqs : List (String × String))
    (key rng : String) : Bool :=
  match kvGet key st0.modules with
  | none => false
  | some m =>
    match kvGet
        (if isVersionContainPackageName rng then extractPackageNameFromVersion rng else key)
        w.registry with
    | none => false
    | some resp =>
      resp.ok && satisfiesB m.version (extractVersionFromVersion rng) &&
      (match kvGet m.version resp.body.versions with
       | none => false
       | some vr => isModuleValid vr m && binsPresentB st0.binLinks vr) &&
      m.dependencies.all (fun p => decide (p ∈ allReqs))

/-- The second-run invariant: the module tree, bin links and download logs
are untouched and the cache stays registry-consistent. -/
@[reducible] def C8Inv (w : World) (st0 st : St) : Prop :=
  st.modules = st0.modules ∧ st.binLinks = st0.binLinks ∧
  st.downloads = st0.downloads ∧ st.redownloads = st0.redownloads ∧
  cacheOK w st.cache

theorem getPackage_C8 (w : World) (name : String) (st : St)
    (hc : cacheOK w st.cache) :
    cacheOK w (getPackage w name st).1.cache ∧
    (∀ pkg, (getPackage w name st).2 = .ok pkg →
      (kvGet name w.registry).map RegResponse.ok = some true ∧
      (kvGet name w.registry).map RegResponse.body = some pkg) ∧
    ∀ e, (getPackage w name st).2 = .error e → (fetchRegistry w name).ok = false := by
  unfold getPackage
  cases hcc : kvGet name st.cache with
  | some p =>
    have hmem := hc (name, p) (kvGet_mem _ _ _ hcc)
    refine ⟨hc, fun pkg hpkg => ?_, fun e he => Except.noConfusion he⟩
    injection hpkg with h'
    rw [← h']
    exact hmem
  | none =>
    cases hd : downloadPackageInfo w name with
    | error e =>
      refine ⟨hc, fun pkg hpkg => Except.noConfusion hpkg, fun e2 he => ?_⟩
      unfold downloadPackageInfo at hd
      by_cases hok : (fetchRegistry w name).ok = true
      · rw [if_pos hok] at hd; exact Except.noConfusion hd
      · cases hh : (fetchRegistry w name).ok
        · rfl
        · exact absurd hh hok
    | ok p =>
      unfold downloadPackageInfo at hd
      by_cases hok : (fetchRegistry w name).ok = true
      · rw [if_pos hok] at hd
        injection hd with h'
        have hreg : (kvGet name w.registry).map RegResponse.ok = some true ∧
            (kvGet name w.registry).map RegResponse.body = some p := by
          unfold fetchRegistry at hok h'
          cases hr : kvGet name w.registry with
          | none =>
            rw [hr] at hok
            exact absurd hok (by decide)
          | some resp =>
            rw [hr] at hok h'
            simp only [Option.getD] at hok h'
            simp [hok, h']
        refine ⟨fun c hmem => ?_, fun pkg hpkg => ?_, fun e he => Except.noConfusion he⟩
        · rcases mem_kvSet c name p st.cache hmem with h2 | h2
          · rw [h2]; exact hreg
          · exact hc c h2
        · injection hpkg with h2
          rw [← h2]
          exact hreg
      · rw [if_neg hok] at hd
        exact Except.noConfusion hd

theorem symlinkEntries_head (d : String) (e : String × String)
    (rest : List (String × String)) (st : St)
    (h : (kvGet e.1 st.binLinks).isSome = true) :
    symlinkEntries d (e :: rest) st =
      (st, .error (.fsError "EEXIST: file already exists, symlink")) := by
  rcases e with ⟨binName, rel⟩
  rw [symlinkEntries]
  rw [if_pos h]

theorem symlinkBinFiles_C8 (vr : VersionResponse) (d : String) (st : St)
    (hbins : binsPresentB st.binLinks vr = true) :
    (symlinkBinFiles vr d st).1 = st := by
  unfold symlinkBinFiles binsPresentB at *
  cases hb : vr.bin with
  | none => rfl
  | some b =>
    rw [hb] at hbins
    cases b with
    | inl s =>
      dsimp only at hbins ⊢
      rw [symlinkEntries_head d (vr.name, s) [] st hbins]
    | inr l =>
      dsimp only at hbins ⊢
      cases l with
      | nil => rfl
      | cons e rest =>
        have he : (kvGet e.1 st.binLinks).isSome = true := by
          have := List.all_eq_true.mp hbins e (List.mem_cons_self e rest)
          simpa using this
        rw [symlinkEntries_head d e rest st he]

theorem installedBranch_C8 (w : World) (key rv : String) (pkg : PackageResponse)
    (m : Module) (vr : VersionResponse) (st1 : St)
    (hsat : satisfiesB m.version rv = true)
    (hvr : kvGet m.version pkg.versions = some vr)
    (hvalid : isModuleValid vr m = true)
    (hbins : binsPresentB st1.binLinks vr = true) :
    (installedBranch w key rv pkg m st1).1 = st1 := by
  unfold installedBranch
  rw [if_pos hsat, hvr]
  dsimp only
  rw [if_pos hvalid]
  dsimp only
  exact symlinkBinFiles_C8 vr key st1 hbins

theorem processDep_C8 (w : World) (st0 : St) (allReqs : List (String × String))
    (key rng : String) (st : St) (acc : List (String × String))
    (hinv : C8Inv w st0 st)
    (hgood : goodReqB w st0 allReqs key rng = true) :
    C8Inv w st0 (processDep w key rng st acc).1 ∧
    ∀ next1, (processDep w key rng st acc).2 = .ok next1 →
      ∀ p ∈ next1, p ∈ acc ∨ p ∈ allReqs := by
  unfold processDep
  by_cases hskip : truthy (kvGet key st.ledger) = true
  · rw [if_pos hskip]
    exact ⟨hinv, fun next1 h => by
      injection h with h'
      exact fun p hp => Or.inl (h' ▸ hp)⟩
  · rw [if_neg hskip]
    dsimp only
    unfold goodReqB at hgood
    cases hm0 : kvGet key st0.modules with
    | none => rw [hm0] at hgood; exact Bool.noConfusion hgood
    | some m =>
      rw [hm0] at hgood
      cases hreg : kvGet
          (if isVersionContainPackageName rng = true
           then extractPackageNameFromVersion rng else key) w.registry with
      | none => rw [hreg] at hgood; exact Bool.noConfusion hgood
      | some resp =>
        rw [hreg] at hgood
        have hok : resp.ok = true := by
          rcases (Bool.and_eq_true _ _).mp hgood with ⟨h1, _⟩
          rcases (Bool.and_eq_true _ _).mp h1 with ⟨h2, _⟩
          exact ((Bool.and_eq_true _ _).mp h2).1
        have hsat : satisfiesB m.version (extractVersionFromVersion rng) = true := by
          rcases (Bool.and_eq_true _ _).mp hgood with ⟨h1, _⟩
          rcases (Bool.and_eq_true _ _).mp h1 with ⟨h2, _⟩
          exact ((Bool.and_eq_true _ _).mp h2).2
        have hvrmatch : (match kvGet m.version resp.body.versions with
            | none => false
            | some vr => isModuleValid vr m && binsPresentB st0.binLinks vr) = true := by
          rcases (Bool.and_eq_true _ _).mp hgood with ⟨h1, _⟩
          exact ((Bool.and_eq_true _ _).mp h1).2
        have hdeps : ∀ p ∈ m.dependencies, p ∈ allReqs := by
          rcases (Bool.and_eq_true _ _).mp hgood with ⟨_, h1⟩
          intro p hp
          exact of_decide_eq_true (List.all_eq_true.mp h1 p hp)
        have hgp := getPackage_C8 w
          (if isVersionContainPackageName rng = true
           then extractPackageNameFromVersion rng else key) st hinv.2.2.2.2
        have hgf := getPackage_fields w
          (if isVersionContainPackageName rng = true
           then extractPackageNameFromVersion rng else key) st
        rcases hgpe : getPackage w
            (if isVersionContainPackageName rng = true
             then extractPackageNameFromVersion rng else key) st with ⟨st1, rg⟩
        rw [hgpe] at hgp hgf
        cases rg with
        | error e =>
          exfalso
          have hfo := hgp.2.2 e rfl
          unfold fetchRegistry at hfo
          rw [hreg] at hfo
          simp only [Option.getD] at hfo
          rw [hok] at hfo
          exact Bool.noConfusion hfo
        | ok pkg =>
          dsimp only
          have hpkg : pkg = resp.body := by
            have := (hgp.2.1 pkg rfl).2
            rw [hreg] at this
            simpa using this.symm
          have hinv1 : C8Inv w st0 st1 :=
            ⟨hgf.1.trans hinv.1, hgf.2.2.2.2.1.trans hinv.2.1,
             hgf.2.2.2.2.2.1.trans hinv.2.2.1, hgf.2.2.2.2.2.2.trans hinv.2.2.2.1,
             hgp.1⟩
          have hm1 : kvGet key st1.modules = some m := by
            rw [hgf.1, hinv.1]; exact hm0
          rw [hm1]
          dsimp only
          cases hv : kvGet m.version resp.body.versions with
          | none => rw [hv] at hvrmatch; exact Bool.noConfusion hvrmatch
          | some vr =>
            rw [hv] at hvrmatch
            have hvalid : isModuleValid vr m = true :=
              ((Bool.and_eq_true _ _).mp hvrmatch).1
            have hbins0 : binsPresentB st0.binLinks vr = true :=
              ((Bool.and_eq_true _ _).mp hvrmatch).2
            have hbins1 : binsPresentB st1.binLinks vr = true := by
              rw [hgf.2.2.2.2.1, hinv.2.1]; exact hbins0
            have hib1 : (installedBranch w key (extractVersionFromVersion rng)
                pkg m st1).1 = st1 := by
              apply installedBranch_C8 w key _ pkg m vr st1 hsat _ hvalid hbins1
              rw [hpkg]; exact hv
            rcases hbr : installedBranch w key (extractVersionFromVersion rng)
                pkg m st1 with ⟨st3, r3⟩
            rw [hbr] at hib1
            have hst3 : st3 = st1 := hib1
            cases r3 with
            | error e =>
              subst hst3
              exact ⟨hinv1, fun next1 h => Except.noConfusion h⟩
            | ok u =>
              subst hst3
              dsimp only
              refine ⟨⟨hinv1.1, hinv1.2.1, hinv1.2.2.1, hinv1.2.2.2.1, hinv1.2.2.2.2⟩,
                fun next1 h => ?_⟩
              injection h with h'
              intro p hp
              rw [← h'] at hp
              rcases mem_kvMerge p _ _ hp with h2 | h2
              · exact Or.inl h2
              · exact Or.inr (hdeps p h2)

theorem installLevel_C8 (w : World) (st0 : St) (allReqs : List (String × String))
    (hall : ∀ p ∈ allReqs, goodReqB w st0 allReqs p.1 p.2 = true) :
    ∀ (lvl : List (String × String)) (st : St) (acc : List (String × String)),
      C8Inv w st0 st → (∀ p ∈ lvl, p ∈ allReqs) → (∀ p ∈ acc, p ∈ allReqs) →
      C8Inv w st0 (installLevel w lvl st acc).1 ∧
      ∀ next2, (installLevel w lvl st acc).2 = .ok next2 → ∀ p ∈ next2, p ∈ allReqs := by
  intro lvl
  induction lvl with
  | nil =>
    intro st acc hinv _ hacc
    refine ⟨hinv, fun next2 h => ?_⟩
    injection h with h'
    exact h' ▸ hacc
  | cons kr rest ih =>
    intro st acc hinv hlvl hacc
    rcases kr with ⟨key, rng⟩
    have hmem := hlvl (key, rng) (List.mem_cons_self _ rest)
    have hpd := processDep_C8 w st0 allReqs key rng st acc hinv (hall (key, rng) hmem)
    rw [installLevel]
    rcases hps : processDep w key rng st acc with ⟨st', r'⟩
    rw [hps] at hpd
    cases r' with
    | error e => exact ⟨hpd.1, fun next2 h => Except.noConfusion h⟩
    | ok next1 =>
      have hnext1 : ∀ p ∈ next1, p ∈ allReqs := by
        intro p hp
        rcases hpd.2 next1 rfl p hp with h' | h'
        · exact hacc p h'
        · exact h'
      exact ih st' next1 hpd.1 (fun p hp => hlvl p (List.mem_cons_of_mem _ hp)) hnext1

theorem levelIter_C8 (w : World) (st0 : St) (allReqs : List (String × String))
    (hall : ∀ p ∈ allReqs, goodReqB w st0 allReqs p.1 p.2 = true) :
    ∀ (n : Nat) (rs : RunState),
      C8Inv w st0 rs.st → (∀ p ∈ rs.level, p ∈ allReqs) →
      C8Inv w st0 (levelIter w n rs).st := by
  intro n
  induction n with
  | zero => intro rs h _; exact h
  | succ n ih =>
    intro rs hinv hlvl
    rw [levelIter]
    by_cases he : rs.err.isSome = true
    · rw [if_pos he]; exact hinv
    · rw [if_neg he]
      by_cases hl : rs.level.isEmpty = true
      · rw [if_pos hl]; exact hinv
      · rw [if_neg hl]
        have hil := installLevel_C8 w st0 allReqs hall rs.level rs.st [] hinv hlvl
          (fun p hp => absurd hp (List.not_mem_nil p))
        rcases hr : installLevel w rs.level rs.st [] with ⟨st', r'⟩
        rw [hr] at hil
        cases r' with
        | error e => exact hil.1
        | ok next => exact ih _ hil.1 (hil.2 next rfl)

/-- Claim C8: running the install loop again over a module tree in which
every requirement (roots and, transitively, every installed module's
dependencies) is installed with a version that satisfies its range, still
published, valid by census, and with its bin links already materialized —
i.e. the tree produced by a completed first run against the unchanged
manifest and registry — invokes neither `downloadModule` nor
`redownloadModule` (both instrumentation logs stay unchanged) and leaves
the module tree and bin links byte-for-byte identical, at every fuel. -/
theorem claim_C8_idempotent (w : World) (st0 : St)
    (roots allReqs : List (String × String))
    (hcache : cacheOK w st0.cache)
    (hroots : ∀ p ∈ roots, p ∈ allReqs)
    (hall : ∀ p ∈ allReqs, goodReqB w st0 allReqs p.1 p.2 = true) :
    ∀ n : Nat,
      (levelIter w n ⟨st0, roots, none⟩).st.modules = st0.modules ∧
      (levelIter w n ⟨st0, roots, none⟩).st.binLinks = st0.binLinks ∧
      (levelIter w n ⟨st0, roots, none⟩).st.downloads = st0.downloads ∧
      (levelIter w n ⟨st0, roots, none⟩).st.redownloads = st0.redownloads := by
  intro n
  have := levelIter_C8 w st0 allReqs hall n ⟨st0, roots, none⟩
    ⟨rfl, rfl, rfl, rfl, hcache⟩ hroots
  exact ⟨this.1, this.2.1, this.2.2.1, this.2.2.2.1⟩

/-! C8 witness fixture: one package `p` at 1.2.3 (with a bin link), fully
installed and valid; its archive would be at TP but is never fetched. -/

def vrP : VersionResponse :=
  {name := "p", version := "1.2.3", dependencies := [("q", "^1.0.0")],
   bin := some (.inl "./cli.js"),
   dist := {tarball := "TP", shasum := "hp", fileCount := 3, unpackedSize := 30}}

def vrQ : VersionResponse :=
  {name := "q", version := "1.0.0", dependencies := [], bin := none,
   dist := {tarball := "TQ", shasum := "hq", fileCount := 1, unpackedSize := 10}}

def wC8 : World :=
  {registry :=
    [("p", {ok := true, status := 200, statusText := "OK",
            body := {name := "p", versions := [("1.2.3", vrP)]}}),
     ("q", {ok := true, status := 200, statusText := "OK",
            body := {name := "q", versions := [("1.0.0", vrQ)]}})],
   tarballs :=
    [("TP", {hash := "hp", extractOk := true,
             content := {version := "1.2.3", dependencies := [("q", "^1.0.0")], census := ⟨3, 30⟩}}),
     ("TQ", {hash := "hq", extractOk := true,
             content := {version := "1.0.0", dependencies := [], census := ⟨1, 10⟩}})]}

/-- The module tree a completed first run leaves behind. -/
def stC8 : St :=
  {modules :=
    [("p", {version := "1.2.3", dependencies := [("q", "^1.0.0")], census := ⟨3, 30⟩}),
     ("q", {version := "1.0.0", dependencies := [], census := ⟨1, 10⟩})],
   tmpFiles := [], binLinks := [("p", "p/./cli.js")], cache := [],
   ledger := [], downloads := [], redownloads := [], processedLog := []}

/-- Witness for claim C8: the second run over the installed p/q tree at
fuel 5 downloads nothing and changes nothing. -/
theorem claim_C8_witness :
    (levelIter wC8 5 ⟨stC8, [("p", "^1.2.0")], none⟩).st.modules = stC8.modules ∧
    (levelIter wC8 5 ⟨stC8, [("p", "^1.2.0")], none⟩).st.binLinks = stC8.binLinks ∧
    (levelIter wC8 5 ⟨stC8, [("p", "^1.2.0")], none⟩).st.downloads = stC8.downloads ∧
    (levelIter wC8 5 ⟨stC8, [("p", "^1.2.0")], none⟩).st.redownloads = stC8.redownloads :=
  claim_C8_idempotent wC8 stC8 [("p", "^1.2.0")] [("p", "^1.2.0"), ("q", "^1.0.0")]
    (by decide) (by decide) (by decide) 5

end Gpm
